import Mathlib

/-!
Verification development for the aleph-nodestatus repository.

The development shallowly embeds the core of the repository:
  * the node-status state machine (src/aleph_nodestatus/status.py,
    class NodesStatus and its process loop),
  * the reward-integrator pass loop (src/aleph_nodestatus/distribution.py,
    prepare_distribution),
  * the n-way ordered merge (src/aleph_nodestatus/utils.py, merge).

Python dictionaries are embedded as insertion-ordered association lists
(CPython dicts preserve insertion order; updating an existing key keeps
its position, inserting a new key appends).  Machine integers are Nat,
balances are exact naturals in the smallest token unit.  Python's float
division `x / n` followed by `int(...)` is embedded exactly as rounding
the true rational x / n to the nearest IEEE-754 binoid64 value
(53 significant bits, round-to-nearest, ties-to-even, the exponent range
left unbounded, which is exact for every quantity this program can
produce) followed by truncation.
-/

namespace NodeStatus

/-! ## Python dict / list primitives -/

/-- Lookup in an insertion-ordered association list (first matching key),
`d.get(k)` / `d[k]`. -/
def dlookup {α : Type} (l : List (String × α)) (k : String) : Option α :=
  match l with
  | [] => none
  | (k', v) :: rest => if k' = k then some v else dlookup rest k

/-- `d.get(k, dflt)`. -/
def dlookupD {α : Type} (l : List (String × α)) (k : String) (dflt : α) : α :=
  (dlookup l k).getD dflt

/-- `k in d`. -/
def dcontains {α : Type} (l : List (String × α)) (k : String) : Bool :=
  match l with
  | [] => false
  | (k', _) :: rest => k' = k || dcontains rest k

/-- `d[k] = v`: update in place if the key is present, append otherwise
(CPython dict assignment semantics). -/
def dinsert {α : Type} (l : List (String × α)) (k : String) (v : α) :
    List (String × α) :=
  match l with
  | [] => [(k, v)]
  | (k', v') :: rest =>
    if k' = k then (k, v) :: rest else (k', v') :: dinsert rest k v

/-- `d.pop(k)` / `del d[k]` (no error when the key is absent; the source
only pops keys it has just checked for). -/
def derase {α : Type} (l : List (String × α)) (k : String) : List (String × α) :=
  match l with
  | [] => []
  | (k', v') :: rest => if k' = k then rest else (k', v') :: derase rest k

/-- Sum of the values of a stakers dict, `sum(d.values())`. -/
def dsum (l : List (String × ℕ)) : ℕ :=
  (l.map (fun p => p.2)).foldr (· + ·) 0

/-! ## Python `int(x / n)` on non-negative integers

`x / n` on two Python ints produces the IEEE-754 double nearest to the
exact rational x / n (round-to-nearest, ties-to-even); `int` then
truncates toward zero.  We model the double with an unbounded exponent
(the program never reaches the finite exponent range's ends), keeping a
53-bit significand.  All arithmetic below is exact on ℕ. -/

/-- Smallest scale m (searched upward with fuel) with 2^52 * n ≤ x * 2^m:
positions the quotient's significand window when x / n < 2^53. -/
def mantShift (x n : ℕ) : ℕ → ℕ → ℕ
  | 0, m => m
  | fuel + 1, m => if 2 ^ 52 * n ≤ x * 2 ^ m then m else mantShift x n fuel (m + 1)

/-- Smallest scale s (searched upward with fuel) with x < 2^53 * n * 2^s:
positions the significand window when x / n ≥ 2^53. -/
def expShift (x n : ℕ) : ℕ → ℕ → ℕ
  | 0, s => s
  | fuel + 1, s => if x < 2 ^ 53 * n * 2 ^ s then s else expShift x n fuel (s + 1)

/-- Nearest integer to N / d, ties to even (the IEEE rounding of a
significand). -/
def roundNearestEven (N d : ℕ) : ℕ :=
  let q := N / d
  let r := N % d
  if 2 * r < d then q
  else if d < 2 * r then q + 1
  else if q % 2 = 0 then q else q + 1

/-- Python `int(x / n)` for x n : ℕ: the true quotient rounded to the
nearest 53-bit-significand binary value (ties to even), truncated.
`n = 0` would raise ZeroDivisionError in Python; the state machine never
divides by zero (its divisors are lengths of non-empty stake lists), and
the total model returns 0 there. -/
def pyIntDiv (x n : ℕ) : ℕ :=
  if n = 0 then 0
  else if x = 0 then 0
  else if x < 2 ^ 53 * n then
    let m := mantShift x n 1200 0
    roundNearestEven (x * 2 ^ m) n / 2 ^ m
  else
    let s := expShift x n 1200 1
    roundNearestEven x (n * 2 ^ s) * 2 ^ s

example : pyIntDiv 5 2 = 2 := by decide
example : pyIntDiv 7 2 = 3 := by decide
example : pyIntDiv 30000 2 = 15000 := by decide
example : pyIntDiv (10 ^ 22) 1 = 10 ^ 22 := by decide
example : pyIntDiv (10 ^ 22 + 1) 1 = 10 ^ 22 := by decide
example : pyIntDiv (2 ^ 54 + 1) 1 = 2 ^ 54 := by decide

/-! ## Configuration (settings.py / module constants of status.py)

The state machine reads its thresholds from a pydantic settings object;
they are embedded as a record so theorems may quantify over them.
`crn_inactivity_cutoff_height` is read by status.py line 277 but is not
declared in settings.py; it is kept as a plain field here (the spec lists
it among the recognized configuration options).  The two hostname
extractors stand for the external multiaddr / urllib parsers used by
`_get_hostname_from_multiaddress` and `urlparse(...).hostname`; they
return `none` when parsing fails (the source then treats the hostname as
absent). -/

structure Cfg where
  node_threshold : ℕ := 199999
  staking_threshold : ℕ := 9999
  node_activation : ℕ := 500000
  node_max_linked : ℕ := 8
  bonus_start : ℕ := 12020360
  node_post_type : String := "corechan-operation"
  scores_post_type : String := "aleph-scoring-scores"
  crn_inactivity_threshold_days : ℕ := 90
  ethereum_blocks_per_day : ℕ := 7130
  crn_inactivity_cutoff_height : ℕ := 0
  maddrHostname : String → Option String := fun _ => none
  urlHostname : String → Option String := fun _ => none

/-- 10 ** settings.ethereum_decimals (erc20.py). -/
def DECIMALS : ℕ := 10 ^ 18

/-- NODE_AMT = settings.node_threshold * DECIMALS (status.py line 14). -/
def NODE_AMT (c : Cfg) : ℕ := c.node_threshold * DECIMALS

/-- STAKING_AMT = settings.staking_threshold * DECIMALS (status.py line 15). -/
def STAKING_AMT (c : Cfg) : ℕ := c.staking_threshold * DECIMALS

/-- ACTIVATION_AMT = settings.node_activation * DECIMALS (status.py line 16). -/
def ACTIVATION_AMT (c : Cfg) : ℕ := c.node_activation * DECIMALS

/-! ## Data model (the node dicts built by NodesStatus.process)

Python stores nodes as string-keyed dicts; the fixed key set is embedded
as a record.  `score_updated` is a key the score branch adds dynamically;
it is carried as a Bool that starts out false (the key is initially
absent; no logic ever reads it).  For resource nodes the editable-fields
loop of `create-resource-node` stores `""` for an absent `locked` /
`authorized`; since only their truthiness (always falsy there) is ever
read, they are embedded at their truthiness as `Bool` / `List String`. -/

structure CoreNode where
  hash : String
  owner : String
  reward : String
  locked : Bool
  stakers : List (String × ℕ)
  total_staked : ℕ
  status : String
  time : ℕ
  authorized : List String
  resource_nodes : List String
  score : ℚ
  decentralization : ℚ
  performance : ℚ
  inactive_since : Option ℕ
  has_bonus : Bool
  score_updated : Bool
  name : String
  multiaddress : String
  address : String
  picture : String
  banner : String
  description : String
  stream_reward : String
  manager : String
  registration_url : String
  terms_and_conditions : String
deriving DecidableEq, Repr

structure ResourceNode where
  hash : String
  typ : String
  owner : String
  manager : String
  reward : String
  locked : Bool
  status : String
  authorized : List String
  parent : Option String
  time : ℕ
  score : ℚ
  decentralization : ℚ
  performance : ℚ
  inactive_since : Option ℕ
  score_updated : Bool
  name : String
  multiaddress : String
  address : String
  picture : String
  banner : String
  description : String
  stream_reward : String
  registration_url : String
  terms_and_conditions : String
deriving DecidableEq, Repr

/-- The NodesStatus state (status.py __init__, lines 42-54). -/
structure St where
  nodes : List (String × CoreNode)
  resource_nodes : List (String × ResourceNode)
  address_nodes : List (String × String)
  address_staking : List (String × List String)
  balances : List (String × ℕ)
  platform_balances : List (String × List (String × ℕ))
  last_checked_height : ℕ
  last_balance_height : ℕ
  last_message_height : ℕ
  last_score_height : ℕ
  last_eth_balance_height : ℕ
  last_others_balance_height : ℕ
deriving DecidableEq, Repr

/-- NodesStatus(initial_height=0). -/
def emptySt : St :=
  { nodes := [], resource_nodes := [], address_nodes := [], address_staking := []
    balances := [], platform_balances := []
    last_checked_height := 0, last_balance_height := 0, last_message_height := 0
    last_score_height := 0, last_eth_balance_height := 0
    last_others_balance_height := 0 }

/-! ## State-machine primitives (status.py lines 56-166) -/

/-- update_node_stats (status.py 56-69): rebuild the stakers dict of one
node from the current balances and per-staker stake counts, recompute
total_staked, and derive the status.  A node hash that is absent would
raise KeyError in Python; every call site guards it, and the model
returns the state unchanged. -/
def updateNodeStats (cfg : Cfg) (s : St) (node_hash : String) : St :=
  match dlookup s.nodes node_hash with
  | none => s
  | some node =>
    let stakers := node.stakers.map fun p =>
      (p.1, pyIntDiv (dlookupD s.balances p.1 0) (dlookupD s.address_staking p.1 []).length)
    let total := dsum stakers
    let status := if ACTIVATION_AMT cfg - 1 * DECIMALS ≤ total then "active" else "waiting"
    let node' := { node with stakers := stakers, total_staked := total, status := status }
    { s with nodes := dinsert s.nodes node_hash node' }

/-- The list comprehension [await self.update_node_stats(nhash) for nhash in ...]. -/
def updateAll (cfg : Cfg) (s : St) : List String → St
  | [] => s
  | nh :: rest => updateAll cfg (updateNodeStats cfg s nh) rest

/-- Append the elements of xs not yet present (set.update; the Python
set's iteration order is arbitrary, and update_node_stats on distinct
nodes commutes, so insertion order is a sound choice). -/
def listUnion (acc xs : List String) : List String :=
  xs.foldl (fun a x => if a.contains x then a else a ++ [x]) acc

/-- First loop of remove_node (status.py 74-79): for each staker of the
dropped node remove the node from its stake list, dropping the entry when
it empties, and collect the stakers' remaining nodes for a stats refresh. -/
def dropStakersOf (node_hash : String) :
    List (String × ℕ) → St → List String → St × List String
  | [], s, upd => (s, upd)
  | (staker, _) :: rest, s, upd =>
    let lst := (dlookupD s.address_staking staker []).erase node_hash
    if lst.length = 0 then
      dropStakersOf node_hash rest
        { s with address_staking := derase s.address_staking staker } upd
    else
      dropStakersOf node_hash rest
        { s with address_staking := dinsert s.address_staking staker lst }
        (listUnion upd lst)

/-- Second loop of remove_node (status.py 80-83): unlink the resource
nodes of the dropped core node. -/
def unlinkChildren : List String → List (String × ResourceNode) →
    List (String × ResourceNode)
  | [], rns => rns
  | rh :: rest, rns =>
    match dlookup rns rh with
    | none => unlinkChildren rest rns
    | some rn =>
      unlinkChildren rest (dinsert rns rh { rn with parent := none, status := "waiting" })

/-- remove_node (status.py 71-86). -/
def removeNode (cfg : Cfg) (s : St) (node_hash : String) : St :=
  match dlookup s.nodes node_hash with
  | none => s
  | some node =>
    let (s1, upd) := dropStakersOf node_hash node.stakers s []
    let s2 := { s1 with resource_nodes := unlinkChildren node.resource_nodes s1.resource_nodes }
    let s3 := { s2 with address_nodes := derase s2.address_nodes node.owner
                        nodes := derase s2.nodes node_hash }
    updateAll cfg s3 upd

/-- remove_resource_node (status.py 88-94). -/
def removeResourceNode (cfg : Cfg) (s : St) (node_hash : String) : St :=
  match dlookup s.resource_nodes node_hash with
  | none => s
  | some node =>
    let s1 :=
      match node.parent with
      | none => s
      | some p =>
        match dlookup s.nodes p with
        | none => s
        | some pnode =>
          let pnode' := { pnode with resource_nodes := pnode.resource_nodes.erase node_hash }
          updateNodeStats cfg { s with nodes := dinsert s.nodes p pnode' } p
    { s1 with resource_nodes := derase s1.resource_nodes node_hash }

/-- Loop of remove_stake (status.py 106-112): over the copied stake list,
pop the staker from the targeted nodes and refresh each node's stats. -/
def removeStakeLoop (cfg : Cfg) (staker : String) (node_hash : Option String) :
    List String → St → St
  | [], s => s
  | nh :: rest, s =>
    let s1 :=
      if node_hash = none ∨ node_hash = some nh then
        match dlookup s.nodes nh with
        | none => s
        | some node =>
          { s with nodes := dinsert s.nodes nh { node with stakers := derase node.stakers staker } }
      else s
    removeStakeLoop cfg staker node_hash rest (updateNodeStats cfg s1 nh)

/-- remove_stake (status.py 96-116): remove one stake of `staker` when a
node hash is given, all of them otherwise. -/
def removeStake (cfg : Cfg) (s : St) (staker : String) (node_hash : Option String) : St :=
  let node_hashes := dlookupD s.address_staking staker []
  let s1 :=
    match node_hash with
    | none => s
    | some nh =>
      { s with address_staking := dinsert s.address_staking staker (node_hashes.erase nh) }
  let s2 := removeStakeLoop cfg staker node_hash node_hashes s1
  if node_hash = none ∨ (dlookupD s2.address_staking staker []).length = 0 then
    { s2 with address_staking := derase s2.address_staking staker }
  else s2

/-- _recompute_platform_balances (status.py 118-123). -/
def recomputeBalances : List String → St → St
  | [], s => s
  | addr :: rest, s =>
    let balance := (s.platform_balances.map fun p => dlookupD p.2 addr 0).foldr (· + ·) 0
    recomputeBalances rest { s with balances := dinsert s.balances addr balance }

/-- _prepare_crn_url (status.py 136-149): return "" when any other
resource node's address has the same hostname (None hostnames compare
equal, as in Python). -/
def prepareCrnUrl (cfg : Cfg) (s : St) (node_hash : String) (address : String) : String :=
  let nh := cfg.urlHostname address
  if s.resource_nodes.any fun p => p.2.hash ≠ node_hash && cfg.urlHostname p.2.address == nh
  then "" else address

/-- _prepare_ccn_multiaddress (status.py 151-166): "" when the
multiaddress has no parsable hostname or the hostname is used by another
core node. -/
def prepareCcnMultiaddress (cfg : Cfg) (s : St) (node_hash : String)
    (multiaddress : String) : String :=
  match cfg.maddrHostname multiaddress with
  | none => ""
  | some hn =>
    if s.nodes.any fun p => p.2.hash ≠ node_hash && cfg.maddrHostname p.2.multiaddress == some hn
    then "" else multiaddress

/-! ## Events

The merged stream carries `(height, tiebreaker, (item_type, item))`
triples (prepare_items, status.py 36-38); the state machine dispatches on
the item type.  Message payloads arrive as nested generic dicts; the
fields the machine reads are embedded as records with every editable
field optional ("duck-typed" payloads, schema per the design notes). -/

structure Details where
  name : Option String := none
  multiaddress : Option String := none
  address : Option String := none
  picture : Option String := none
  banner : Option String := none
  description : Option String := none
  reward : Option String := none
  stream_reward : Option String := none
  manager : Option String := none
  registration_url : Option String := none
  terms_and_conditions : Option String := none
  authorized : Option (List String) := none
  locked : Option Bool := none
  typ : Option String := none
deriving DecidableEq, Repr

/-- A node-operation / amend message (the parts of the aleph message the
staking-update branch reads: item_hash, time, content.type,
content.address, content.ref, content.content.action,
content.content.details). -/
structure Msg where
  item_hash : String
  time : ℕ
  postType : String
  address : String
  ref : Option String := none
  action : String := ""
  details : Details := {}
deriving DecidableEq, Repr

/-- One entry of a score report ("performance" is read with a .get
defaulting to 0). -/
structure ScoreEntry where
  node_id : String
  total_score : ℚ
  performance : Option ℚ := none
  decentralization : ℚ
deriving DecidableEq, Repr

/-- A score-report message (content.type, content.content.scores.ccn/crn). -/
structure ScoreMsg where
  postType : String
  ccn : List ScoreEntry := []
  crn : List ScoreEntry := []
deriving DecidableEq, Repr

/-- The tagged event variants produced by prepare_items: the tag strings
"balance-update" / "staking-update" / "score-update" become constructors. -/
inductive Event
  | balanceUpdate (balances : List (String × ℕ)) (platform : String) (changed : List String)
  | stakingUpdate (msg : Msg)
  | scoreUpdate (msg : ScoreMsg)
deriving DecidableEq, Repr

/-- Strict rational comparison by cross multiplication, the order the
score branch applies to score values; it agrees with `<` on ℚ
(`pyLt_iff`), and unlike ℚ's builtin order it evaluates inside the
kernel, keeping concrete runs checkable. -/
def pyLt (a b : ℚ) : Bool := decide (a.num * (b.den : ℤ) < b.num * (a.den : ℤ))

theorem pyLt_iff (a b : ℚ) : pyLt a b = true ↔ a < b := by
  simp [pyLt, Rat.lt_def]

/-- The literal 0.01 from `score < 0.01` (status.py 244, 272), written in
lowest terms so that it reduces in the kernel. -/
def centiQ : ℚ := ⟨1, 100, by norm_num, by simp [Nat.coprime_one_left]⟩

theorem centiQ_eq : centiQ = 1 / 100 := by
  rw [centiQ, Rat.mk'_eq_divInt, Rat.divInt_eq_div]; norm_num

/-! ## Balance-update branch (status.py 171-208) -/

/-- The per-changed-address loop (status.py 178-200), threading the
`changed` flag: an address that neither owns a node nor stakes resets it
to False (and it is never set back). -/
def balanceFold (cfg : Cfg) : List String → St → Bool → St × Bool
  | [], s, ch => (s, ch)
  | addr :: rest, s, ch =>
    if dcontains s.address_nodes addr then
      let s1 :=
        if dlookupD s.balances addr 0 < NODE_AMT cfg then
          removeNode cfg s (dlookupD s.address_nodes addr "")
        else s
      balanceFold cfg rest s1 ch
    else if dcontains s.address_staking addr then
      let s1 :=
        if dlookupD s.balances addr 0 < STAKING_AMT cfg then
          removeStake cfg s addr none
        else
          updateAll cfg s (dlookupD s.address_staking addr [])
      balanceFold cfg rest s1 ch
    else
      balanceFold cfg rest s false

/-! ## Score-update branch (status.py 210-286) -/

/-- Element update shared by the ccn and crn score loops: within the
10-height window (`last_score_height > height - 10`, rewritten as
`last_score_height + 10 > height` to avoid signed arithmetic) keep the
better score and performance, otherwise overwrite both; always overwrite
decentralization and flag score_updated. -/
def applyCcnScore (s : St) (height : ℕ) (e : ScoreEntry) : St :=
  match dlookup s.nodes e.node_id with
  | none => s
  | some node =>
    let score := e.total_score
    let performance := e.performance.getD 0
    let node1 :=
      if s.last_score_height + 10 > height then
        { node with
            score := if pyLt node.score score then score else node.score
            performance := if pyLt node.performance performance then performance else node.performance }
      else
        { node with score := score, performance := performance }
    let node2 := { node1 with decentralization := e.decentralization, score_updated := true }
    let node3 :=
      if pyLt score centiQ then
        if node2.inactive_since = none then { node2 with inactive_since := some height } else node2
      else
        { node2 with inactive_since := none }
    { s with nodes := dinsert s.nodes e.node_id node3 }

/-- Resource-node score update (status.py 251-283): same smoothing, plus
the inactivity eviction: below the 0.01 score, when the height passed the
cutoff, the node has been inactive longer than the threshold
(`height - inactive_since > days * blocks_per_day`, rewritten additively)
and it has no parent, the resource node is removed. -/
def applyCrnScore (cfg : Cfg) (s : St) (height : ℕ) (e : ScoreEntry) : St :=
  match dlookup s.resource_nodes e.node_id with
  | none => s
  | some node =>
    let score := e.total_score
    let performance := e.performance.getD 0
    let node1 :=
      if s.last_score_height + 10 > height then
        { node with
            score := if pyLt node.score score then score else node.score
            performance := if pyLt node.performance performance then performance else node.performance }
      else
        { node with score := score, performance := performance }
    let node2 := { node1 with decentralization := e.decentralization, score_updated := true }
    if pyLt score centiQ then
      let node3 :=
        if node2.inactive_since = none then { node2 with inactive_since := some height } else node2
      let s1 := { s with resource_nodes := dinsert s.resource_nodes e.node_id node3 }
      let inactiveLongEnough :=
        match node3.inactive_since with
        | some t => decide (cfg.crn_inactivity_threshold_days * cfg.ethereum_blocks_per_day + t < height)
        | none => false
      if cfg.crn_inactivity_cutoff_height < height ∧ inactiveLongEnough = true ∧ node3.parent = none then
        removeResourceNode cfg s1 e.node_id
      else s1
    else
      { s with resource_nodes := dinsert s.resource_nodes e.node_id ({ node2 with inactive_since := none }) }

/-- The ccn score loop. -/
def ccnScoresFold (s : St) (height : ℕ) : List ScoreEntry → St
  | [] => s
  | e :: rest => ccnScoresFold (applyCcnScore s height e) height rest

/-- The crn score loop. -/
def crnScoresFold (cfg : Cfg) (s : St) (height : ℕ) : List ScoreEntry → St
  | [] => s
  | e :: rest => crnScoresFold cfg (applyCrnScore cfg s height e) height rest

/-! ## Staking-update branch (status.py 288-581)

Each elif arm of the dispatch becomes a decidable condition plus an
effect; conditions read no mutable state, so splitting them off is
behavior-preserving.  Direct dict indexing in the source is always
guarded by a preceding membership test; the model looks the entry up
once and treats the (unreachable) miss as a no-op. -/

/-- create-node precondition (status.py 314-318). -/
def createNodeCond (cfg : Cfg) (s : St) (m : Msg) : Bool :=
  m.action == "create-node" && !dcontains s.address_nodes m.address &&
    decide (NODE_AMT cfg ≤ dlookupD s.balances m.address 0)

/-- create-node effect (status.py 319-357): build the node record, run
the editable-fields loop (reward, locked, authorized excluded), validate
the multiaddress, set the bonus flag, index the node, then drop any stake
the new owner had. -/
def createNodeEffect (cfg : Cfg) (s : St) (height : ℕ) (m : Msg) : St :=
  let d := m.details
  let node : CoreNode :=
    { hash := m.item_hash, owner := m.address, reward := d.reward.getD m.address
      locked := d.locked.getD false, stakers := [], total_staked := 0, status := "waiting"
      time := m.time, authorized := [], resource_nodes := []
      score := 0, decentralization := 0, performance := 0, inactive_since := none
      has_bonus := false, score_updated := false
      name := "", multiaddress := "", address := "", picture := "", banner := ""
      description := "", stream_reward := "", manager := "", registration_url := ""
      terms_and_conditions := "" }
  let node :=
    { node with
        name := d.name.getD "", address := d.address.getD "", picture := d.picture.getD ""
        banner := d.banner.getD "", description := d.description.getD ""
        stream_reward := d.stream_reward.getD "", manager := d.manager.getD ""
        registration_url := d.registration_url.getD ""
        terms_and_conditions := d.terms_and_conditions.getD ""
        multiaddress := prepareCcnMultiaddress cfg s m.item_hash (d.multiaddress.getD "") }
  let node := { node with has_bonus := height < cfg.bonus_start }
  let s1 := { s with address_nodes := dinsert s.address_nodes m.address m.item_hash
                     nodes := dinsert s.nodes m.item_hash node }
  if dcontains s1.address_staking m.address then removeStake cfg s1 m.address none else s1

/-- create-resource-node precondition (status.py 359-362). -/
def createResourceNodeCond (m : Msg) : Bool :=
  m.action == "create-resource-node" && !(m.details.typ == none)

/-- create-resource-node effect (status.py 363-392).  The editable-fields
loop excludes only "reward", so the initial manager (defaulting to the
sender), locked and authorized values are overwritten from the details
with defaults "" (embedded at their truthiness for locked/authorized). -/
def createResourceNodeEffect (cfg : Cfg) (s : St) (m : Msg) : St :=
  let d := m.details
  let node : ResourceNode :=
    { hash := m.item_hash, typ := d.typ.getD "", owner := m.address
      manager := d.manager.getD m.address, reward := d.reward.getD m.address
      locked := d.locked.getD false, status := "waiting", authorized := [], parent := none
      time := m.time, score := 0, decentralization := 0, performance := 0
      inactive_since := none, score_updated := false
      name := "", multiaddress := "", address := "", picture := "", banner := ""
      description := "", stream_reward := "", registration_url := ""
      terms_and_conditions := "" }
  let node :=
    { node with
        name := d.name.getD "", multiaddress := d.multiaddress.getD ""
        picture := d.picture.getD "", banner := d.banner.getD ""
        description := d.description.getD "", stream_reward := d.stream_reward.getD ""
        manager := d.manager.getD "", authorized := d.authorized.getD []
        locked := d.locked.getD false, registration_url := d.registration_url.getD ""
        terms_and_conditions := d.terms_and_conditions.getD ""
        address := prepareCrnUrl cfg s m.item_hash (d.address.getD "") }
  { s with resource_nodes := dinsert s.resource_nodes m.item_hash node }

/-- link precondition (status.py 395-411). -/
def linkCond (cfg : Cfg) (s : St) (m : Msg) : Bool :=
  m.action == "link" &&
  match dlookup s.address_nodes m.address, m.ref with
  | some en, some r =>
    match dlookup s.nodes en, dlookup s.resource_nodes r with
    | some node, some rnode =>
      decide (node.resource_nodes.length < cfg.node_max_linked) &&
        !node.resource_nodes.contains r && rnode.parent == none && !rnode.locked
    | _, _ => false
  | _, _ => false

/-- link effect (status.py 412-417). -/
def linkEffect (cfg : Cfg) (s : St) (m : Msg) : St :=
  match dlookup s.address_nodes m.address, m.ref with
  | some en, some r =>
    match dlookup s.nodes en, dlookup s.resource_nodes r with
    | some node, some rnode =>
      let node' := { node with resource_nodes := node.resource_nodes ++ [r] }
      let rnode' := { rnode with parent := some en, status := "linked" }
      updateNodeStats cfg
        { s with nodes := dinsert s.nodes en node'
                 resource_nodes := dinsert s.resource_nodes r rnode' } en
    | _, _ => s
  | _, _ => s

/-- unlink precondition (status.py 419-435). -/
def unlinkCond (s : St) (m : Msg) : Bool :=
  m.action == "unlink" &&
  match m.ref with
  | some r =>
    match dlookup s.resource_nodes r with
    | some rnode =>
      !(rnode.parent == none) &&
        ((dcontains s.address_nodes m.address &&
            rnode.parent == dlookup s.address_nodes m.address) ||
          rnode.owner == m.address)
    | none => false
  | none => false

/-- unlink effect (status.py 436-441). -/
def unlinkEffect (cfg : Cfg) (s : St) (m : Msg) : St :=
  match m.ref with
  | some r =>
    match dlookup s.resource_nodes r with
    | some rnode =>
      match rnode.parent with
      | some p =>
        match dlookup s.nodes p with
        | some node =>
          let node' := { node with resource_nodes := node.resource_nodes.erase r }
          let rnode' := { rnode with parent := none, status := "waiting" }
          updateNodeStats cfg
            { s with nodes := dinsert s.nodes p node'
                     resource_nodes := dinsert s.resource_nodes r rnode' } node'.hash
        | none => s
      | none => s
    | none => s
  | none => s

/-- drop-node (core) precondition (status.py 443-449). -/
def dropCoreCond (s : St) (m : Msg) : Bool :=
  m.action == "drop-node" && dcontains s.address_nodes m.address &&
  match m.ref with
  | some r => dcontains s.nodes r && some r == dlookup s.address_nodes m.address
  | none => false

/-- drop-node (resource) precondition (status.py 452-457). -/
def dropResourceCond (s : St) (m : Msg) : Bool :=
  m.action == "drop-node" &&
  match m.ref with
  | some r =>
    match dlookup s.resource_nodes r with
    | some rnode => rnode.owner == m.address
    | none => false
  | none => false

/-- stake precondition (status.py 460-473). -/
def stakeCond (cfg : Cfg) (s : St) (m : Msg) : Bool :=
  m.action == "stake" && decide (STAKING_AMT cfg ≤ dlookupD s.balances m.address 0) &&
    !dcontains s.address_nodes m.address &&
  match m.ref with
  | some r =>
    match dlookup s.nodes r with
    | some node =>
      !node.locked || (node.locked && node.authorized.contains m.address)
    | none => false
  | none => false

/-- stake effect (status.py 474-481): drop all prior stakes, record the
full balance as the stake, point the address at the single node, refresh. -/
def stakeEffect (cfg : Cfg) (s : St) (m : Msg) : St :=
  match m.ref with
  | some r =>
    let s1 := if dcontains s.address_staking m.address then removeStake cfg s m.address none else s
    let s2 :=
      match dlookup s1.nodes r with
      | some node =>
        let node' := { node with stakers := dinsert node.stakers m.address (dlookupD s1.balances m.address 0) }
        { s1 with nodes := dinsert s1.nodes r node' }
      | none => s1
    let s3 := { s2 with address_staking := dinsert s2.address_staking m.address [r] }
    updateNodeStats cfg s3 r
  | none => s

/-- stake-split precondition (status.py 483-496): as stake, plus the node
must not already be in the sender's stake list. -/
def stakeSplitCond (cfg : Cfg) (s : St) (m : Msg) : Bool :=
  m.action == "stake-split" && decide (STAKING_AMT cfg ≤ dlookupD s.balances m.address 0) &&
    !dcontains s.address_nodes m.address &&
  match m.ref with
  | some r =>
    !(dlookupD s.address_staking m.address []).contains r &&
    match dlookup s.nodes r with
    | some node =>
      !node.locked || (node.locked && node.authorized.contains m.address)
    | none => false
  | none => false

/-- stake-split effect (status.py 497-507): append the node to the
sender's stake list, set the equal share on it, refresh every staked
node. -/
def stakeSplitEffect (cfg : Cfg) (s : St) (m : Msg) : St :=
  match m.ref with
  | some r =>
    let s1 :=
      if ¬dcontains s.address_staking m.address then
        { s with address_staking := dinsert s.address_staking m.address [] }
      else s
    let lst := dlookupD s1.address_staking m.address [] ++ [r]
    let s2 := { s1 with address_staking := dinsert s1.address_staking m.address lst }
    let s3 :=
      match dlookup s2.nodes r with
      | some node =>
        let share := pyIntDiv (dlookupD s2.balances m.address 0) lst.length
        let node' := { node with stakers := dinsert node.stakers m.address share }
        { s2 with nodes := dinsert s2.nodes r node' }
      | none => s2
    updateAll cfg s3 lst
  | none => s

/-- unstake precondition (status.py 509-514). -/
def unstakeCond (s : St) (m : Msg) : Bool :=
  m.action == "unstake" && dcontains s.address_staking m.address &&
  match m.ref with
  | some r => (dlookupD s.address_staking m.address []).contains r
  | none => false

/-- amend targeting a core node: precondition (status.py 521-531). -/
def amendCoreCond (s : St) (m : Msg) : Bool :=
  m.postType == "amend" &&
  match m.ref with
  | some r =>
    match dlookup s.nodes r with
    | some node =>
      (node.owner == m.address && dcontains s.address_nodes m.address) ||
        node.manager == m.address
    | none => false
  | none => false

/-- amend effect on a core node (status.py 533-548): every editable field
is overwritten from the details, defaulting to its current value (reward
and manager would fall back to the sender only if the key were missing,
which creation rules out); multiaddress is re-validated. -/
def amendCoreEffect (cfg : Cfg) (s : St) (m : Msg) : St :=
  match m.ref with
  | some r =>
    match dlookup s.nodes r with
    | some node =>
      let d := m.details
      let node' :=
        { node with
            reward := d.reward.getD node.reward, manager := d.manager.getD node.manager
            authorized := d.authorized.getD node.authorized, locked := d.locked.getD node.locked
            name := d.name.getD node.name, address := d.address.getD node.address
            picture := d.picture.getD node.picture, banner := d.banner.getD node.banner
            description := d.description.getD node.description
            stream_reward := d.stream_reward.getD node.stream_reward
            registration_url := d.registration_url.getD node.registration_url
            terms_and_conditions := d.terms_and_conditions.getD node.terms_and_conditions
            multiaddress := prepareCcnMultiaddress cfg s node.hash (d.multiaddress.getD node.multiaddress) }
      { s with nodes := dinsert s.nodes r node' }
    | none => s
  | none => s

/-- amend targeting a resource node: precondition (status.py 550-557). -/
def amendResourceCond (s : St) (m : Msg) : Bool :=
  m.postType == "amend" &&
  match m.ref with
  | some r =>
    match dlookup s.resource_nodes r with
    | some rnode => rnode.owner == m.address || rnode.manager == m.address
    | none => false
  | none => false

/-- amend effect on a resource node (status.py 559-574). -/
def amendResourceEffect (cfg : Cfg) (s : St) (m : Msg) : St :=
  match m.ref with
  | some r =>
    match dlookup s.resource_nodes r with
    | some node =>
      let d := m.details
      let node' :=
        { node with
            reward := d.reward.getD node.reward, manager := d.manager.getD node.manager
            authorized := d.authorized.getD node.authorized, locked := d.locked.getD node.locked
            name := d.name.getD node.name, multiaddress := d.multiaddress.getD node.multiaddress
            picture := d.picture.getD node.picture, banner := d.banner.getD node.banner
            description := d.description.getD node.description
            stream_reward := d.stream_reward.getD node.stream_reward
            registration_url := d.registration_url.getD node.registration_url
            terms_and_conditions := d.terms_and_conditions.getD node.terms_and_conditions
            address := prepareCrnUrl cfg s node.hash (d.address.getD node.address) }
      { s with resource_nodes := dinsert s.resource_nodes r node' }
    | none => s
  | none => s

/-- The staking-update elif chain (status.py 306-578), returning the new
state and the `changed` flag. -/
def processMsg (cfg : Cfg) (s : St) (height : ℕ) (m : Msg) : St × Bool :=
  if m.postType = cfg.node_post_type then
    if createNodeCond cfg s m then (createNodeEffect cfg s height m, true)
    else if createResourceNodeCond m then (createResourceNodeEffect cfg s m, true)
    else if linkCond cfg s m then (linkEffect cfg s m, true)
    else if unlinkCond s m then (unlinkEffect cfg s m, true)
    else if dropCoreCond s m then
      (removeNode cfg s (m.ref.getD ""), true)
    else if dropResourceCond s m then
      (removeResourceNode cfg s (m.ref.getD ""), true)
    else if stakeCond cfg s m then (stakeEffect cfg s m, true)
    else if stakeSplitCond cfg s m then (stakeSplitEffect cfg s m, true)
    else if unstakeCond s m then (removeStake cfg s m.address m.ref, true)
    else (s, false)
  else if amendCoreCond s m then (amendCoreEffect cfg s m, true)
  else if amendResourceCond s m then (amendResourceEffect cfg s m, true)
  else (s, false)

/-- One iteration of NodesStatus.process (status.py 168-587): dispatch on
the event kind, update the height watermarks, and report whether a
snapshot is emitted (the final `changed` flag). -/
def processEvent (cfg : Cfg) (s : St) (height : ℕ) (ev : Event) : St × Bool :=
  match ev with
  | .balanceUpdate balances platform changed_addresses =>
    let s1 := { s with platform_balances := dinsert s.platform_balances platform balances }
    let s2 := recomputeBalances changed_addresses s1
    let (s3, ch) := balanceFold cfg changed_addresses s2 true
    let s4 :=
      if s3.last_balance_height < height then { s3 with last_balance_height := height } else s3
    let s5 :=
      if platform = "ETH" ∧ s4.last_eth_balance_height < height then
        { s4 with last_eth_balance_height := height }
      else if platform ≠ "ETH" ∧ s4.last_others_balance_height < height then
        { s4 with last_others_balance_height := height }
      else s4
    let s6 :=
      if s5.last_checked_height < height then { s5 with last_checked_height := height } else s5
    (s6, ch)
  | .scoreUpdate sm =>
    let s1 :=
      if sm.postType = cfg.scores_post_type then
        let sa := ccnScoresFold s height sm.ccn
        let sb := crnScoresFold cfg sa height sm.crn
        if sb.last_score_height < height then { sb with last_score_height := height } else sb
      else s
    let s2 :=
      if s1.last_checked_height < height then { s1 with last_checked_height := height } else s1
    (s2, true)
  | .stakingUpdate m =>
    let (s1, ch) := processMsg cfg s height m
    let s2 :=
      if s1.last_message_height < height then { s1 with last_message_height := height } else s1
    let s3 :=
      if s2.last_checked_height < height then { s2 with last_checked_height := height } else s2
    (s3, ch)

/-- A snapshot as yielded by NodesStatus.process: height, nodes and
resource nodes. -/
def snapshotOf (s : St) (height : ℕ) :
    ℕ × List (String × CoreNode) × List (String × ResourceNode) :=
  (height, s.nodes, s.resource_nodes)

/-- Run a merged event sequence through the state machine, collecting the
emitted snapshots. -/
def runEvents (cfg : Cfg) : List (ℕ × Event) → St →
    St × List (ℕ × List (String × CoreNode) × List (String × ResourceNode))
  | [], s => (s, [])
  | (height, ev) :: rest, s =>
    let (s1, emitted) := processEvent cfg s height ev
    let (s2, snaps) := runEvents cfg rest s1
    (s2, if emitted then snapshotOf s1 height :: snaps else snaps)

/-! ## Association-list lemmas -/

theorem dlookup_dinsert {α : Type} (l : List (String × α)) (k : String) (v : α) :
    dlookup (dinsert l k v) k = some v := by
  induction l with
  | nil => simp [dinsert, dlookup]
  | cons p rest ih =>
    by_cases h : p.1 = k
    · simp [dinsert, h, dlookup]
    · simp [dinsert, h, dlookup, ih]

theorem dlookup_dinsert_ne {α : Type} (l : List (String × α)) (k k' : String) (v : α)
    (h : k ≠ k') : dlookup (dinsert l k v) k' = dlookup l k' := by
  induction l with
  | nil => simp [dinsert, dlookup, h]
  | cons p rest ih =>
    by_cases hp : p.1 = k
    · simp [dinsert, hp, dlookup, h]
    · simp [dinsert, hp, dlookup, ih]

theorem dcontains_eq_isSome_dlookup {α : Type} (l : List (String × α)) (k : String) :
    dcontains l k = (dlookup l k).isSome := by
  induction l with
  | nil => simp [dcontains, dlookup]
  | cons p rest ih =>
    by_cases h : p.1 = k
    · simp [dcontains, dlookup, h]
    · simp [dcontains, dlookup, h, ih]

/-- Keys of an association list. -/
def dkeys {α : Type} (l : List (String × α)) : List String := l.map fun p => p.1

theorem dlookup_derase_self {α : Type} (l : List (String × α)) (k : String)
    (h : (dkeys l).Nodup) : dlookup (derase l k) k = none := by
  induction l with
  | nil => simp [derase, dlookup]
  | cons p rest ih =>
    simp only [dkeys, List.map_cons, List.nodup_cons] at h
    by_cases hp : p.1 = k
    · subst hp
      simp only [derase, if_pos rfl]
      cases hl : dlookup rest p.1 with
      | none => exact hl
      | some v =>
        exfalso
        apply h.1
        clear ih h
        induction rest with
        | nil => simp [dlookup] at hl
        | cons q qs ihq =>
          by_cases hq : q.1 = p.1
          · simp [hq]
          · simp only [dlookup, if_neg hq] at hl
            simp [List.mem_map]
            right
            have := ihq (by simpa using hl)
            simpa [List.mem_map] using this
    · simp only [derase, if_neg hp, dlookup, if_neg hp]
      exact ih h.2

/-! ## Shared concrete fixtures -/

/-- The settings.py defaults (with a zero inactivity cutoff height and no
hostname parsers). -/
def defaultCfg : Cfg := {}

def msgCreateH1 : Msg :=
  { item_hash := "H1", time := 5, postType := "corechan-operation"
    address := "0xO", action := "create-node" }

def msgStakeA : Msg :=
  { item_hash := "M2", time := 6, postType := "corechan-operation"
    address := "0xA", action := "stake", ref := some "H1" }

/-- Three events: fund the owner and the staker, create core node H1,
stake the full balance of 0xA on it. -/
def evsStakeRun : List (ℕ × Event) :=
  [ (1, .balanceUpdate [("0xO", 2 * 10 ^ 23), ("0xA", 10 ^ 22 + 1)] "ETH" ["0xO", "0xA"]),
    (2, .stakingUpdate msgCreateH1),
    (3, .stakingUpdate msgStakeA) ]

/-! ## C1 -/

/-- C1 (code bug).  The claim — after every emitted snapshot each
recorded stake equals the exact integer floor of the staker's balance
divided by its stake count, in exact integer arithmetic for arbitrarily
large balances — fails on the code: update_node_stats computes the share
as int(balance / count), a float division.  Reaching the snapshot after
an accepted stake of the (admissible, threshold is 9999 tokens) balance
10^22 + 1 units, the recorded stake is 10^22, while the exact floor
(10^22 + 1) div 1 is 10^22 + 1.  The run below is a full execution from
the empty state; both snapshots of the run are emitted at heights 2
and 3. -/
theorem stake_record_truncates_large_balances :
    (dlookup (runEvents defaultCfg evsStakeRun emptySt).1.nodes "H1").map
        (fun n => n.stakers) = some [("0xA", 10 ^ 22)] ∧
      (runEvents defaultCfg evsStakeRun emptySt).2.map (fun t => t.1) = [2, 3] ∧
      (10 ^ 22 + 1) / 1 = 10 ^ 22 + 1 ∧ (10 ^ 22 : ℕ) ≠ 10 ^ 22 + 1 := by
  refine ⟨by decide, by decide, by norm_num, by norm_num⟩

/-! ## C3 -/

/-- The disjunction of every branch guard of the staking-update dispatch
(status.py 306-578); the event mutates state and yields a snapshot
exactly when some arm matched. -/
def msgMatched (cfg : Cfg) (s : St) (m : Msg) : Bool :=
  if m.postType = cfg.node_post_type then
    createNodeCond cfg s m || createResourceNodeCond m || linkCond cfg s m ||
      unlinkCond s m || dropCoreCond s m || dropResourceCond s m ||
      stakeCond cfg s m || stakeSplitCond cfg s m || unstakeCond s m
  else
    amendCoreCond s m || amendResourceCond s m

theorem nat_max_ite (a h : ℕ) : max a h = if a < h then h else a := by
  rcases Nat.lt_or_ge a h with hh | hh
  · rw [if_pos hh, Nat.max_eq_right (le_of_lt hh)]
  · rw [if_neg (Nat.not_lt.mpr hh), Nat.max_eq_left hh]

theorem processMsg_not_matched (cfg : Cfg) (s : St) (height : ℕ) (m : Msg)
    (h : msgMatched cfg s m = false) : processMsg cfg s height m = (s, false) := by
  unfold msgMatched at h
  unfold processMsg
  by_cases hp : m.postType = cfg.node_post_type
  · simp only [if_pos hp] at h ⊢
    simp only [Bool.or_eq_false_iff] at h
    obtain ⟨⟨⟨⟨⟨⟨⟨⟨h1, h2⟩, h3⟩, h4⟩, h5⟩, h6⟩, h7⟩, h8⟩, h9⟩
      := h
    simp [h1, h2, h3, h4, h5, h6, h7, h8, h9]
  · simp only [if_neg hp] at h ⊢
    simp only [Bool.or_eq_false_iff] at h
    simp [h.1, h.2]

/-- A message failing every branch: unknown action on the node post
type. -/
def msgInvalid : Msg :=
  { item_hash := "MX", time := 9, postType := "corechan-operation"
    address := "0xQ", action := "nonsense" }

/-- C3 counterexample.  The claim says a lifecycle message that fails all
precondition branches leaves the entire state — including the height
watermarks — unchanged.  Processing an invalid message at height 7 from
the empty state emits nothing, yet advances last_message_height (and
last_checked_height) from 0 to 7. -/
theorem invalid_message_advances_watermarks :
    (processEvent defaultCfg emptySt 7 (.stakingUpdate msgInvalid)).2 = false ∧
      emptySt.last_message_height = 0 ∧
      (processEvent defaultCfg emptySt 7 (.stakingUpdate msgInvalid)).1.last_message_height = 7 ∧
      (processEvent defaultCfg emptySt 7 (.stakingUpdate msgInvalid)).1.last_checked_height = 7 := by
  refine ⟨by decide, by decide, by decide, by decide⟩

/-- C3 (amended).  A lifecycle message failing every branch is silently
rejected: no snapshot is emitted and the state is unchanged **except**
that the last_message_height and last_checked_height watermarks still
advance to the event height. -/
theorem invalid_message_changes_only_watermarks (cfg : Cfg) (s : St) (height : ℕ)
    (m : Msg) (h : msgMatched cfg s m = false) :
    processEvent cfg s height (.stakingUpdate m) =
      ({ s with last_message_height := max s.last_message_height height
                last_checked_height := max s.last_checked_height height }, false) := by
  simp only [processEvent]
  rw [processMsg_not_matched cfg s height m h]
  cases s with
  | mk nodes rnodes anodes astaking balances pbalances lch lbh lmh lsh leh loh =>
    dsimp only
    simp only [nat_max_ite]
    split_ifs <;> rfl

/-- Witness for the amended C3 at a concrete invalid message. -/
theorem invalid_message_changes_only_watermarks_witness :
    msgMatched defaultCfg emptySt msgInvalid = false ∧
      processEvent defaultCfg emptySt 7 (.stakingUpdate msgInvalid) =
        ({ emptySt with last_message_height := max emptySt.last_message_height 7
                        last_checked_height := max emptySt.last_checked_height 7 }, false) :=
  ⟨by decide, invalid_message_changes_only_watermarks defaultCfg emptySt 7 msgInvalid (by decide)⟩

/-! ## C4 -/

/-- A create-resource-node message whose details carry only the type. -/
def msgCrnNoManager : Msg :=
  { item_hash := "R1", time := 9, postType := "corechan-operation"
    address := "0xA", action := "create-resource-node"
    details := { typ := some "compute" } }

/-- C4 counterexample.  The claim says the created resource node's
manager defaults to the sender when details omit it; processing an
accepted create-resource-node from sender 0xA with details {type} yields
a node whose manager is "" (the editable-fields loop overwrites the
initial owner default), not "0xA". -/
theorem create_resource_node_manager_defaults_empty :
    (processEvent defaultCfg emptySt 3 (.stakingUpdate msgCrnNoManager)).2 = true ∧
      (dlookup (processEvent defaultCfg emptySt 3
          (.stakingUpdate msgCrnNoManager)).1.resource_nodes "R1").map (fun n => n.manager)
        = some "" ∧ msgCrnNoManager.address = "0xA" ∧ "" ≠ "0xA" := by
  refine ⟨by decide, by decide, by decide, by decide⟩

/-- C4 (amended).  For every accepted create-resource-node message (the
details carry a type) whose details omit the manager field, the created
node's manager is the empty string — the initial default to the sender is
overwritten by the editable-fields loop, which excludes only "reward" —
while reward still defaults to the sender, parent starts nil and status
starts waiting. -/
theorem create_resource_node_defaults (cfg : Cfg) (s : St) (height : ℕ) (m : Msg)
    (hpt : m.postType = cfg.node_post_type)
    (hact : m.action = "create-resource-node")
    (hty : m.details.typ ≠ none)
    (hmgr : m.details.manager = none) :
    ∃ node, dlookup (processEvent cfg s height
        (.stakingUpdate m)).1.resource_nodes m.item_hash = some node ∧
      node.manager = "" ∧ node.reward = m.details.reward.getD m.address ∧
      node.parent = none ∧ node.status = "waiting" := by
  have hcn : createNodeCond cfg s m = false := by
    simp [createNodeCond, hact]
  have hcr : createResourceNodeCond m = true := by
    simp [createResourceNodeCond, hact]
    simpa using hty
  have hres : (processEvent cfg s height (.stakingUpdate m)).1.resource_nodes
      = (createResourceNodeEffect cfg s m).resource_nodes := by
    simp only [processEvent, processMsg, if_pos hpt, hcn, hcr]
    simp only [Bool.false_eq_true, if_false, if_true]
    split_ifs <;> rfl
  rw [hres]
  simp only [createResourceNodeEffect]
  exact ⟨_, dlookup_dinsert _ _ _, by simp [hmgr], rfl, rfl, rfl⟩

/-- Witness for the amended C4. -/
theorem create_resource_node_defaults_witness :
    ∃ node, dlookup (processEvent defaultCfg emptySt 3
        (.stakingUpdate msgCrnNoManager)).1.resource_nodes msgCrnNoManager.item_hash = some node ∧
      node.manager = "" ∧ node.reward = msgCrnNoManager.details.reward.getD msgCrnNoManager.address ∧
      node.parent = none ∧ node.status = "waiting" :=
  create_resource_node_defaults defaultCfg emptySt 3 msgCrnNoManager
    (by decide) (by decide) (by decide) (by decide)

/-! ## C2 -/

/-- The stake run followed by a balance update whose changed addresses
are the staker 0xA (now with a different balance) and an address 0xZ the
machine has never seen. -/
def evsMutateNoEmit : List (ℕ × Event) :=
  evsStakeRun ++
    [ (4, .balanceUpdate [("0xO", 2 * 10 ^ 23), ("0xA", 3 * 10 ^ 22)] "ETH" ["0xA", "0xZ"]) ]

/-- C2 counterexample.  The claim says a snapshot is emitted iff the
event mutates the state.  The fourth event of the run mutates the state
(0xA's recorded stake is recomputed for its new balance) yet emits no
snapshot, because the unknown changed address 0xZ resets the `changed`
flag: the emitted snapshot heights stay `[2, 3]`. -/
theorem mutating_balance_update_emits_no_snapshot :
    (runEvents defaultCfg evsMutateNoEmit emptySt).1.nodes ≠
        (runEvents defaultCfg evsStakeRun emptySt).1.nodes ∧
      (runEvents defaultCfg evsMutateNoEmit emptySt).2.map (fun t => t.1) = [2, 3] := by
  refine ⟨by decide, by decide⟩

theorem dcontains_dinsert_ne {α : Type} (l : List (String × α)) (k a : String) (v : α)
    (h : a ≠ k) : dcontains (dinsert l k v) a = dcontains l a := by
  induction l with
  | nil => simp [dinsert, dcontains, Ne.symm h]
  | cons p rest ih =>
    by_cases hp : p.1 = k
    · simp [dinsert, hp, dcontains, Ne.symm h]
    · simp [dinsert, hp, dcontains, ih]

theorem dcontains_derase_of_eq_false {α : Type} (l : List (String × α)) (k a : String)
    (h : dcontains l a = false) : dcontains (derase l k) a = false := by
  induction l with
  | nil => simp [derase, dcontains]
  | cons p rest ih =>
    simp only [dcontains, Bool.or_eq_false_iff] at h
    by_cases hp : p.1 = k
    · simp [derase, hp, h.2]
    · simp [derase, hp, dcontains, h.1, ih h.2]

theorem derase_dinsert_of_not_contains {α : Type} (l : List (String × α)) (a : String)
    (v : α) (h : dcontains l a = false) : derase (dinsert l a v) a = l := by
  induction l with
  | nil => simp [dinsert, derase]
  | cons p rest ih =>
    simp only [dcontains, Bool.or_eq_false_iff] at h
    have hp : p.1 ≠ a := by
      intro hh; rw [hh] at h; simp at h
    simp [dinsert, derase, hp, ih h.2]

theorem updateNodeStats_anodes (cfg : Cfg) (s : St) (nh : String) :
    (updateNodeStats cfg s nh).address_nodes = s.address_nodes := by
  unfold updateNodeStats
  cases dlookup s.nodes nh <;> rfl

theorem updateNodeStats_astaking (cfg : Cfg) (s : St) (nh : String) :
    (updateNodeStats cfg s nh).address_staking = s.address_staking := by
  unfold updateNodeStats
  cases dlookup s.nodes nh <;> rfl

theorem updateAll_anodes (cfg : Cfg) (l : List String) (s : St) :
    (updateAll cfg s l).address_nodes = s.address_nodes := by
  induction l generalizing s with
  | nil => rfl
  | cons nh rest ih => rw [updateAll, ih, updateNodeStats_anodes]

theorem updateAll_astaking (cfg : Cfg) (l : List String) (s : St) :
    (updateAll cfg s l).address_staking = s.address_staking := by
  induction l generalizing s with
  | nil => rfl
  | cons nh rest ih => rw [updateAll, ih, updateNodeStats_astaking]

theorem removeStakeLoop_anodes (cfg : Cfg) (staker : String) (onh : Option String)
    (l : List String) (s : St) :
    (removeStakeLoop cfg staker onh l s).address_nodes = s.address_nodes := by
  induction l generalizing s with
  | nil => rfl
  | cons nh rest ih =>
    rw [removeStakeLoop, ih, updateNodeStats_anodes]
    split_ifs with h
    · cases dlookup s.nodes nh <;> rfl
    · rfl

theorem removeStakeLoop_astaking (cfg : Cfg) (staker : String) (onh : Option String)
    (l : List String) (s : St) :
    (removeStakeLoop cfg staker onh l s).address_staking = s.address_staking := by
  induction l generalizing s with
  | nil => rfl
  | cons nh rest ih =>
    rw [removeStakeLoop, ih, updateNodeStats_astaking]
    split_ifs with h
    · cases dlookup s.nodes nh <;> rfl
    · rfl

theorem removeStake_anodes (cfg : Cfg) (s : St) (staker : String) (onh : Option String) :
    (removeStake cfg s staker onh).address_nodes = s.address_nodes := by
  simp only [removeStake]
  cases onh <;> split_ifs <;> simp [removeStakeLoop_anodes]

theorem removeStake_astaking_none (cfg : Cfg) (s : St) (staker : String) :
    (removeStake cfg s staker none).address_staking = derase s.address_staking staker := by
  simp only [removeStake]
  split_ifs with hc
  · simp [removeStakeLoop_astaking]
  · exact absurd (Or.inl trivial) hc

theorem removeStake_astaking_some (cfg : Cfg) (s : St) (staker nh : String) :
    (removeStake cfg s staker (some nh)).address_staking =
      if ((dlookupD s.address_staking staker []).erase nh).length = 0 then
        derase (dinsert s.address_staking staker
          ((dlookupD s.address_staking staker []).erase nh)) staker
      else
        dinsert s.address_staking staker ((dlookupD s.address_staking staker []).erase nh) := by
  simp only [removeStake, removeStakeLoop_astaking, dlookupD, dlookup_dinsert,
    Option.getD_some, reduceCtorEq, false_or]
  split_ifs <;> simp [removeStakeLoop_astaking]

theorem dcontains_false_dlookup {α : Type} (l : List (String × α)) (a : String)
    (h : dcontains l a = false) : dlookup l a = none := by
  have hx := dcontains_eq_isSome_dlookup l a
  rw [h] at hx
  cases hy : dlookup l a
  · rfl
  · rw [hy] at hx; simp at hx

theorem removeStake_astaking_untracked (cfg : Cfg) (s : St) (staker a : String)
    (onh : Option String) (h : dcontains s.address_staking a = false) :
    dcontains (removeStake cfg s staker onh).address_staking a = false := by
  cases onh with
  | none =>
    rw [removeStake_astaking_none]
    exact dcontains_derase_of_eq_false _ _ _ h
  | some nh =>
    rw [removeStake_astaking_some]
    by_cases hsa : a = staker
    · subst hsa
      have hlk : dlookup s.address_staking a = none := dcontains_false_dlookup _ _ h
      simp only [dlookupD, hlk, Option.getD_none, List.erase_nil, List.length_nil, if_pos rfl]
      rw [derase_dinsert_of_not_contains _ _ _ h]
      exact h
    · split_ifs with hlen
      · exact dcontains_derase_of_eq_false _ _ _
          (by rw [dcontains_dinsert_ne _ _ _ _ hsa]; exact h)
      · rw [dcontains_dinsert_ne _ _ _ _ hsa]; exact h

theorem dropStakersOf_anodes (nh : String) (lst : List (String × ℕ)) (s : St)
    (upd : List String) :
    (dropStakersOf nh lst s upd).1.address_nodes = s.address_nodes := by
  induction lst generalizing s upd with
  | nil => rfl
  | cons p rest ih =>
    rw [dropStakersOf]
    split_ifs <;> rw [ih]

theorem dropStakersOf_astaking_untracked (nh : String) (lst : List (String × ℕ)) (s : St)
    (upd : List String) (a : String) (h : dcontains s.address_staking a = false) :
    dcontains (dropStakersOf nh lst s upd).1.address_staking a = false := by
  revert h
  induction lst generalizing s upd with
  | nil => exact fun h => h
  | cons p rest ih =>
    intro h
    rw [dropStakersOf]
    split_ifs with hlen
    · exact ih _ _ (by simpa using dcontains_derase_of_eq_false _ _ _ h)
    · by_cases hap : a = p.1
      · subst hap
        have hlk : dlookup s.address_staking p.1 = none := dcontains_false_dlookup _ _ h
        simp [dlookupD, hlk] at hlen
      · exact ih _ _ (by simpa using (dcontains_dinsert_ne _ _ _ _ hap).trans h)

theorem removeNode_anodes_untracked (cfg : Cfg) (s : St) (nh a : String)
    (h : dcontains s.address_nodes a = false) :
    dcontains (removeNode cfg s nh).address_nodes a = false := by
  unfold removeNode
  cases hl : dlookup s.nodes nh with
  | none => exact h
  | some node =>
    simp only []
    rw [updateAll_anodes]
    simp only []
    exact dcontains_derase_of_eq_false _ _ _ (by rw [dropStakersOf_anodes]; exact h)

theorem removeNode_astaking_untracked (cfg : Cfg) (s : St) (nh a : String)
    (h : dcontains s.address_staking a = false) :
    dcontains (removeNode cfg s nh).address_staking a = false := by
  unfold removeNode
  cases hl : dlookup s.nodes nh with
  | none => exact h
  | some node =>
    simp only []
    rw [updateAll_astaking]
    simp only []
    exact dropStakersOf_astaking_untracked _ _ _ _ _ h

theorem recomputeBalances_anodes (l : List String) (s : St) :
    (recomputeBalances l s).address_nodes = s.address_nodes := by
  induction l generalizing s with
  | nil => rfl
  | cons addr rest ih => rw [recomputeBalances, ih]

theorem recomputeBalances_astaking (l : List String) (s : St) :
    (recomputeBalances l s).address_staking = s.address_staking := by
  induction l generalizing s with
  | nil => rfl
  | cons addr rest ih => rw [recomputeBalances, ih]

theorem balanceFold_false_absorb (cfg : Cfg) (l : List String) (s : St) :
    (balanceFold cfg l s false).2 = false := by
  induction l generalizing s with
  | nil => rfl
  | cons addr rest ih =>
    rw [balanceFold]
    split_ifs <;> exact ih _

theorem balanceFold_untracked (cfg : Cfg) (l : List String) (s : St) (ch : Bool)
    (a : String) (hmem : a ∈ l)
    (hn : dcontains s.address_nodes a = false)
    (hs : dcontains s.address_staking a = false) :
    (balanceFold cfg l s ch).2 = false := by
  induction l generalizing s ch with
  | nil => cases hmem
  | cons addr rest ih =>
    rw [balanceFold]
    by_cases hN : dcontains s.address_nodes addr
    · rw [if_pos hN]
      have haddr : a ≠ addr := by
        intro hh; rw [hh] at hn; rw [hn] at hN; cases hN
      have hmem' : a ∈ rest := by
        cases hmem with
        | head => exact absurd rfl haddr
        | tail _ hm => exact hm
      split_ifs with hb
      · exact ih _ _ hmem' (removeNode_anodes_untracked _ _ _ _ hn)
          (removeNode_astaking_untracked _ _ _ _ hs)
      · exact ih _ _ hmem' hn hs
    · rw [if_neg hN]
      by_cases hS : dcontains s.address_staking addr
      · rw [if_pos hS]
        have haddr : a ≠ addr := by
          intro hh; rw [hh] at hs; rw [hs] at hS; cases hS
        have hmem' : a ∈ rest := by
          cases hmem with
          | head => exact absurd rfl haddr
          | tail _ hm => exact hm
        split_ifs with hb
        · exact ih _ _ hmem' (by rw [removeStake_anodes]; exact hn)
            (removeStake_astaking_untracked _ _ _ _ _ hs)
        · exact ih _ _ hmem' (by rw [updateAll_anodes]; exact hn)
            (by rw [updateAll_astaking]; exact hs)
      · rw [if_neg hS]
        exact balanceFold_false_absorb _ _ _

theorem processMsg_snd (cfg : Cfg) (s : St) (height : ℕ) (m : Msg) :
    (processMsg cfg s height m).2 = msgMatched cfg s m := by
  unfold processMsg msgMatched
  by_cases hp : m.postType = cfg.node_post_type
  · simp only [if_pos hp]
    split_ifs <;> simp_all
  · simp only [if_neg hp]
    split_ifs <;> simp_all

/-- C2 (amended).  Snapshot emission does not track mutation; it tracks
the `changed` flag: a score-update event always emits a snapshot (even
when it changes nothing); a staking-update emits exactly when some
dispatch arm matched; and a balance-update whose changed addresses
include one the machine does not recognize (neither a node owner nor a
staker) emits no snapshot, even when the rest of the update mutates
state. -/
theorem snapshot_emission_characterization :
    (∀ (cfg : Cfg) (s : St) (h : ℕ) (sm : ScoreMsg),
        (processEvent cfg s h (.scoreUpdate sm)).2 = true) ∧
      (∀ (cfg : Cfg) (s : St) (h : ℕ) (m : Msg),
        (processEvent cfg s h (.stakingUpdate m)).2 = msgMatched cfg s m) ∧
      (∀ (cfg : Cfg) (s : St) (h : ℕ) (bal : List (String × ℕ)) (plat : String)
          (changed : List String) (a : String), a ∈ changed →
        dcontains s.address_nodes a = false → dcontains s.address_staking a = false →
        (processEvent cfg s h (.balanceUpdate bal plat changed)).2 = false) := by
  have hstk : ∀ (cfg : Cfg) (s : St) (h : ℕ) (m : Msg),
      (processEvent cfg s h (.stakingUpdate m)).2 = (processMsg cfg s h m).2 := by
    intro cfg s h m
    rfl
  have hbal : ∀ (cfg : Cfg) (s : St) (h : ℕ) (bal : List (String × ℕ)) (plat : String)
      (changed : List String),
      (processEvent cfg s h (.balanceUpdate bal plat changed)).2 =
        (balanceFold cfg changed (recomputeBalances changed
          { s with platform_balances := dinsert s.platform_balances plat bal }) true).2 := by
    intro cfg s h bal plat changed
    rfl
  refine ⟨fun cfg s h sm => rfl, fun cfg s h m => ?_, ?_⟩
  · rw [hstk, processMsg_snd]
  · intro cfg s h bal plat changed a hmem hn hs
    rw [hbal]
    apply balanceFold_untracked cfg changed _ true a hmem
    · rw [recomputeBalances_anodes]; exact hn
    · rw [recomputeBalances_astaking]; exact hs

/-- Witness for the amended C2 at concrete events. -/
theorem snapshot_emission_characterization_witness :
    (processEvent defaultCfg emptySt 5 (.scoreUpdate { postType := "nope" })).2 = true ∧
      (processEvent defaultCfg emptySt 5 (.stakingUpdate msgInvalid)).2 =
        msgMatched defaultCfg emptySt msgInvalid ∧
      (processEvent defaultCfg emptySt 5 (.balanceUpdate [] "ETH" ["0xZ"])).2 = false :=
  ⟨snapshot_emission_characterization.1 defaultCfg emptySt 5 { postType := "nope" },
    snapshot_emission_characterization.2.1 defaultCfg emptySt 5 msgInvalid,
    snapshot_emission_characterization.2.2 defaultCfg emptySt 5 [] "ETH" ["0xZ"] "0xZ"
      (by decide) (by decide) (by decide)⟩

/-! ## C5 / C6 -/

theorem dlookup_eq_none_of_not_mem_dkeys {α : Type} (l : List (String × α)) (k : String)
    (h : k ∉ dkeys l) : dlookup l k = none := by
  induction l with
  | nil => rfl
  | cons p rest ih =>
    simp only [dkeys, List.map_cons, List.mem_cons, not_or] at h
    rw [dlookup, if_neg (fun hh => h.1 hh.symm)]
    exact ih (by simpa [dkeys] using h.2)

theorem dlookup_derase_dinsert_self {α : Type} (l : List (String × α)) (k : String)
    (v : α) (h : (dkeys l).Nodup) : dlookup (derase (dinsert l k v) k) k = none := by
  induction l with
  | nil => simp [dinsert, derase, dlookup]
  | cons p rest ih =>
    simp only [dkeys, List.map_cons, List.nodup_cons] at h
    by_cases hp : p.1 = k
    · rw [dinsert, if_pos hp, derase, if_pos rfl]
      subst hp
      exact dlookup_eq_none_of_not_mem_dkeys _ _ h.1
    · rw [dinsert, if_neg hp, derase, if_neg hp, dlookup, if_neg hp]
      exact ih h.2

/-- A score report keeps resource_nodes as computed by the crn loop. -/
theorem processEvent_score_rnodes (cfg : Cfg) (s : St) (height : ℕ) (sm : ScoreMsg)
    (h : sm.postType = cfg.scores_post_type) :
    (processEvent cfg s height (.scoreUpdate sm)).1.resource_nodes =
      (crnScoresFold cfg (ccnScoresFold s height sm.ccn) height sm.crn).resource_nodes := by
  simp only [processEvent, if_pos h]
  split_ifs <;> rfl

theorem processEvent_score_nodes (cfg : Cfg) (s : St) (height : ℕ) (sm : ScoreMsg)
    (h : sm.postType = cfg.scores_post_type) :
    (processEvent cfg s height (.scoreUpdate sm)).1.nodes =
      (crnScoresFold cfg (ccnScoresFold s height sm.ccn) height sm.crn).nodes := by
  simp only [processEvent, if_pos h]
  split_ifs <;> rfl

/-- C5.  For a score report carrying a resource-node score below 0.01 for
an existing resource node (a single-entry report; the source processes
entries independently), when the report height has passed the inactivity
cutoff, the node has already been inactive for more than
crn_inactivity_threshold_days * blocks_per_day heights (the source's
`height - inactive_since > days * blocks` test, written additively over
ℕ), and the node has no parent, processing the report removes the node
from resource_nodes. -/
theorem crn_inactivity_eviction (cfg : Cfg) (s : St) (height : ℕ) (e : ScoreEntry)
    (rnode : ResourceNode) (t : ℕ)
    (hkeys : (dkeys s.resource_nodes).Nodup)
    (hlk : dlookup s.resource_nodes e.node_id = some rnode)
    (hscore : e.total_score < 1 / 100)
    (hsince : rnode.inactive_since = some t)
    (hcut : cfg.crn_inactivity_cutoff_height < height)
    (hthr : cfg.crn_inactivity_threshold_days * cfg.ethereum_blocks_per_day + t < height)
    (hpar : rnode.parent = none) :
    dlookup (processEvent cfg s height
        (.scoreUpdate { postType := cfg.scores_post_type, ccn := [], crn := [e] })).1.resource_nodes
      e.node_id = none := by
  rw [processEvent_score_rnodes cfg s height _ rfl]
  show dlookup (crnScoresFold cfg (applyCrnScore cfg s height e) height []).resource_nodes
      e.node_id = none
  rw [crnScoresFold]
  have hplt : pyLt e.total_score centiQ = true := by
    rw [pyLt_iff, centiQ_eq]; exact hscore
  by_cases hw : s.last_score_height + 10 > height <;>
    · simp only [applyCrnScore, hlk, hplt, if_true, if_pos, if_neg, hw, hsince,
        reduceCtorEq, if_false, removeResourceNode, hpar, dlookup_dinsert, decide_eq_true_eq]
      rw [if_pos ⟨hcut, by simp [hthr], trivial⟩]
      simp only [removeResourceNode, dlookup_dinsert, hpar]
      exact dlookup_derase_dinsert_self _ _ _ hkeys

/-- Witness fixture for C5: a parked (never linked) resource node, long
inactive. -/
def rnodeFixture : ResourceNode :=
  { hash := "R1", typ := "compute", owner := "0xA", manager := "", reward := "0xA"
    locked := false, status := "waiting", authorized := [], parent := none, time := 1
    score := 1, decentralization := 0, performance := 0, inactive_since := some 100
    score_updated := false, name := "", multiaddress := "", address := "", picture := ""
    banner := "", description := "", stream_reward := "", registration_url := ""
    terms_and_conditions := "" }

def stWithRnode : St := { emptySt with resource_nodes := [("R1", rnodeFixture)] }

def lowScoreEntry : ScoreEntry := { node_id := "R1", total_score := 0, decentralization := 1 }

theorem crn_inactivity_eviction_witness :
    dlookup (processEvent defaultCfg stWithRnode 700000
        (.scoreUpdate { postType := defaultCfg.scores_post_type, ccn := []
                        crn := [lowScoreEntry] })).1.resource_nodes "R1" = none :=
  crn_inactivity_eviction defaultCfg stWithRnode 700000 lowScoreEntry rnodeFixture 100
    (by decide) (by decide)
    (by rw [← centiQ_eq]; exact (pyLt_iff 0 centiQ).mp (by decide))
    (by decide) (by decide) (by decide) (by decide)

theorem dkeys_nil {α : Type} : dkeys ([] : List (String × α)) = [] := rfl

theorem dkeys_cons {α : Type} (p : String × α) (l : List (String × α)) :
    dkeys (p :: l) = p.1 :: dkeys l := rfl

theorem dinsert_cons_eq {α : Type} (p : String × α) (rest : List (String × α)) (v : α) :
    dinsert (p :: rest) p.1 v = (p.1, v) :: rest := by
  cases p with
  | mk a b => simp [dinsert]

theorem dinsert_cons_ne {α : Type} (p : String × α) (rest : List (String × α))
    (k : String) (v : α) (hp : ¬p.1 = k) :
    dinsert (p :: rest) k v = p :: dinsert rest k v := by
  cases p with
  | mk a b => simp only [dinsert] at hp ⊢; rw [if_neg hp]

theorem mem_dkeys_dinsert {α : Type} (l : List (String × α)) (k x : String) (v : α) :
    x ∈ dkeys (dinsert l k v) ↔ x ∈ dkeys l ∨ x = k := by
  induction l with
  | nil => simp [dinsert, dkeys]
  | cons p rest ih =>
    by_cases hp : p.1 = k
    · subst hp
      rw [dinsert_cons_eq, dkeys_cons, dkeys_cons]
      simp only [List.mem_cons]
      tauto
    · rw [dinsert_cons_ne _ _ _ _ hp, dkeys_cons, dkeys_cons]
      simp only [List.mem_cons, ih]
      tauto

theorem dkeys_dinsert_nodup {α : Type} (l : List (String × α)) (k : String) (v : α)
    (h : (dkeys l).Nodup) : (dkeys (dinsert l k v)).Nodup := by
  induction l with
  | nil => simp [dinsert, dkeys]
  | cons p rest ih =>
    rw [dkeys_cons, List.nodup_cons] at h
    by_cases hp : p.1 = k
    · subst hp
      rw [dinsert_cons_eq, dkeys_cons, List.nodup_cons]
      exact ⟨h.1, h.2⟩
    · rw [dinsert_cons_ne _ _ _ _ hp, dkeys_cons, List.nodup_cons]
      refine ⟨?_, ih h.2⟩
      intro hmem
      rcases (mem_dkeys_dinsert rest k p.1 v).mp hmem with hy | hy
      · exact h.1 hy
      · exact hp hy

theorem updateNodeStats_rnodes (cfg : Cfg) (s : St) (nh : String) :
    (updateNodeStats cfg s nh).resource_nodes = s.resource_nodes := by
  unfold updateNodeStats
  cases dlookup s.nodes nh <;> rfl

/-- remove_resource_node always ends deleting the hash from the
resource-node dict, so the removed hash no longer resolves. -/
theorem removeResourceNode_lookup_self (cfg : Cfg) (st : St) (rid : String)
    (h : (dkeys st.resource_nodes).Nodup) :
    dlookup (removeResourceNode cfg st rid).resource_nodes rid = none := by
  unfold removeResourceNode
  cases hl : dlookup st.resource_nodes rid with
  | none => exact hl
  | some node =>
    dsimp only
    cases hpar : node.parent with
    | none =>
      dsimp only
      exact dlookup_derase_self _ _ h
    | some p =>
      dsimp only
      cases hp : dlookup st.nodes p with
      | none =>
        dsimp only
        exact dlookup_derase_self _ _ h
      | some pnode =>
        dsimp only
        rw [updateNodeStats_rnodes]
        exact dlookup_derase_self _ _ h

theorem pyLt_max_right (a b : ℚ) (h : pyLt a b = true) : b = max a b :=
  (max_eq_right (le_of_lt ((pyLt_iff a b).mp h))).symm

theorem pyLt_max_left (a b : ℚ) (h : ¬pyLt a b = true) : a = max a b :=
  (max_eq_left (le_of_not_lt fun hl => h ((pyLt_iff a b).mpr hl))).symm

/-- The crn score branch either evicts the node or stores the updated
record; the lookup result is decided by the eviction condition. -/
theorem crn_branch_lookup (cfg : Cfg) (s : St) (rid : String) (node3 : ResourceNode)
    (C : Prop) [Decidable C] (hkeys : (dkeys s.resource_nodes).Nodup) :
    dlookup (if C then
        removeResourceNode cfg
          { s with resource_nodes := dinsert s.resource_nodes rid node3 } rid
      else
        { s with resource_nodes := dinsert s.resource_nodes rid node3 }).resource_nodes rid
      = if C then none else some node3 := by
  split_ifs with hc
  · exact removeResourceNode_lookup_self _ _ _ (dkeys_dinsert_nodup _ _ _ hkeys)
  · exact dlookup_dinsert _ _ _

/-- C6.  A score report applied to a node known to the state (conjunction
over the two node kinds, single-entry reports; the source processes
entries independently): within the 10-height window (the source's
`last_score_height > height - 10`, written additively) the stored score
and performance become the element-wise maxima of old and new; outside it
they are overwritten; decentralization is always overwritten.  For a
resource node the conclusion is read off the stored node when the report
does not also evict it. -/
theorem score_report_smoothing :
    (∀ (cfg : Cfg) (s : St) (height : ℕ) (e : ScoreEntry) (node : CoreNode),
      dlookup s.nodes e.node_id = some node →
      ∃ node', dlookup (processEvent cfg s height
          (.scoreUpdate { postType := cfg.scores_post_type, ccn := [e], crn := [] })).1.nodes
            e.node_id = some node' ∧
        (s.last_score_height + 10 > height →
          node'.score = max node.score e.total_score ∧
          node'.performance = max node.performance (e.performance.getD 0)) ∧
        (¬s.last_score_height + 10 > height →
          node'.score = e.total_score ∧ node'.performance = e.performance.getD 0) ∧
        node'.decentralization = e.decentralization) ∧
    (∀ (cfg : Cfg) (s : St) (height : ℕ) (e : ScoreEntry) (rnode : ResourceNode),
      (dkeys s.resource_nodes).Nodup →
      dlookup s.resource_nodes e.node_id = some rnode →
      ∀ rnode', dlookup (processEvent cfg s height
          (.scoreUpdate { postType := cfg.scores_post_type, ccn := [], crn := [e] })).1.resource_nodes
            e.node_id = some rnode' →
        (s.last_score_height + 10 > height →
          rnode'.score = max rnode.score e.total_score ∧
          rnode'.performance = max rnode.performance (e.performance.getD 0)) ∧
        (¬s.last_score_height + 10 > height →
          rnode'.score = e.total_score ∧ rnode'.performance = e.performance.getD 0) ∧
        rnode'.decentralization = e.decentralization) := by
  constructor
  · intro cfg s height e node hlk
    rw [processEvent_score_nodes cfg s height _ rfl]
    show ∃ node', dlookup (crnScoresFold cfg (applyCcnScore s height e) height []).nodes
        e.node_id = some node' ∧ _
    rw [crnScoresFold]
    by_cases hw : s.last_score_height + 10 > height
    · simp only [applyCcnScore, hlk, if_pos hw]
      refine ⟨_, dlookup_dinsert _ _ _, fun _ => ⟨?_, ?_⟩, fun hc => absurd hw hc, ?_⟩ <;>
        · split_ifs <;>
            first
              | exact pyLt_max_right _ _ (by assumption)
              | exact pyLt_max_left _ _ (by assumption)
              | rfl
    · simp only [applyCcnScore, hlk, if_neg hw]
      refine ⟨_, dlookup_dinsert _ _ _, fun hc => absurd hc hw, fun _ => ⟨?_, ?_⟩, ?_⟩ <;>
        · split_ifs <;> rfl
  · intro cfg s height e rnode hkeys hlk rnode' hlk'
    rw [processEvent_score_rnodes cfg s height _ rfl] at hlk'
    rw [show crnScoresFold cfg (ccnScoresFold s height []) height [e]
          = crnScoresFold cfg (applyCrnScore cfg s height e) height [] from rfl,
        crnScoresFold] at hlk'
    by_cases hw : s.last_score_height + 10 > height <;>
      [simp only [applyCrnScore, hlk, if_pos hw] at hlk';
       simp only [applyCrnScore, hlk, if_neg hw] at hlk'] <;>
    by_cases hlo : pyLt e.total_score centiQ = true <;>
    first
      | (simp only [hlo, if_true] at hlk'
         rw [crn_branch_lookup _ _ _ _ _ hkeys] at hlk'
         split_ifs at hlk'
         all_goals
           first
             | exact Option.noConfusion hlk'
             | (simp only [Option.some.injEq] at hlk'
                subst hlk'
                refine ⟨fun hcw => ⟨?_, ?_⟩, fun hcw => ⟨?_, ?_⟩, ?_⟩ <;>
                  first
                    | exact absurd hw hcw
                    | exact absurd hcw hw
                    | rfl
                    | exact pyLt_max_right _ _ (by assumption)
                    | exact pyLt_max_left _ _ (by assumption)
                    | (split_ifs <;>
                        first
                          | exact pyLt_max_right _ _ (by assumption)
                          | exact pyLt_max_left _ _ (by assumption)
                          | rfl)))
      | (simp only [hlo, Bool.false_eq_true, if_false, dlookup_dinsert,
           Option.some.injEq] at hlk'
         subst hlk'
         refine ⟨fun hcw => ⟨?_, ?_⟩, fun hcw => ⟨?_, ?_⟩, ?_⟩ <;>
           first
             | exact absurd hw hcw
             | exact absurd hcw hw
             | rfl
             | exact pyLt_max_right _ _ (by assumption)
             | exact pyLt_max_left _ _ (by assumption)
             | (split_ifs <;>
                 first
                   | exact pyLt_max_right _ _ (by assumption)
                   | exact pyLt_max_left _ _ (by assumption)
                   | rfl))

def coreNodeFixture : CoreNode :=
  { hash := "H1", owner := "0xO", reward := "0xO", locked := false, stakers := []
    total_staked := 0, status := "waiting", time := 1, authorized := [], resource_nodes := []
    score := 0, decentralization := 0, performance := 0, inactive_since := none
    has_bonus := false, score_updated := false, name := "", multiaddress := "", address := ""
    picture := "", banner := "", description := "", stream_reward := "", manager := ""
    registration_url := "", terms_and_conditions := "" }

def stC6 : St :=
  { emptySt with nodes := [("H1", coreNodeFixture)], resource_nodes := [("R1", rnodeFixture)] }

def eH1 : ScoreEntry := { node_id := "H1", total_score := 1, decentralization := 1 }

def eR1 : ScoreEntry := { node_id := "R1", total_score := 1, decentralization := 1 }

/-- The record the crn loop stores for eR1 on stC6 at height 5. -/
def crnStoredFixture : ResourceNode :=
  { rnodeFixture with
      score := 1, performance := 0, decentralization := 1, inactive_since := none
      score_updated := true }

/-- Witness for C6 at a concrete state and single-entry reports. -/
theorem score_report_smoothing_witness :
    (∃ node', dlookup (processEvent defaultCfg stC6 5
        (.scoreUpdate { postType := defaultCfg.scores_post_type, ccn := [eH1], crn := [] })).1.nodes
          eH1.node_id = some node' ∧
      (stC6.last_score_height + 10 > 5 →
        node'.score = max coreNodeFixture.score eH1.total_score ∧
        node'.performance = max coreNodeFixture.performance (eH1.performance.getD 0)) ∧
      (¬stC6.last_score_height + 10 > 5 →
        node'.score = eH1.total_score ∧ node'.performance = eH1.performance.getD 0) ∧
      node'.decentralization = eH1.decentralization) ∧
    ((stC6.last_score_height + 10 > 5 →
        crnStoredFixture.score = max rnodeFixture.score eR1.total_score ∧
        crnStoredFixture.performance = max rnodeFixture.performance (eR1.performance.getD 0)) ∧
      (¬stC6.last_score_height + 10 > 5 →
        crnStoredFixture.score = eR1.total_score ∧
        crnStoredFixture.performance = eR1.performance.getD 0) ∧
      crnStoredFixture.decentralization = eR1.decentralization) :=
  ⟨score_report_smoothing.1 defaultCfg stC6 5 eH1 coreNodeFixture (by decide),
   score_report_smoothing.2 defaultCfg stC6 5 eR1 rnodeFixture (by decide) (by decide)
     crnStoredFixture (by decide)⟩

/-! ## C7: the reward integrator's pass loop (distribution.py 81-265)

prepare_distribution drives the snapshot stream through a loop that calls
process_distribution on block segments.  The loop is embedded abstracted
over the integration action (process_distribution mutates the rewards
dict in place; here it is a function on an accumulator), keeping the
loop's control flow exactly: the skip of a snapshot at the current
last_height (which still rebinds the loop variables), the break on the
first snapshot beyond end_height (which also leaves that snapshot bound
to the loop variables), and the single trailing process_distribution call
after the loop (reached after exhaustion or break, with the most recently
bound snapshot).  A stream that never yields would leave the loop
variables None and the trailing call would raise in Python; the model
returns the accumulator unchanged there. -/

def passLoop {σ ρ : Type} (integrate : σ → ℕ → ℕ → ρ → ρ)
    (reward_start end_height : ℕ) :
    List (ℕ × σ) → ℕ → Option σ → ρ → ρ
  | [], last_height, lastSnap, rewards =>
    match lastSnap with
    | some st => integrate st last_height end_height rewards
    | none => rewards
  | (height, st) :: rest, last_height, lastSnap, rewards =>
    if height = last_height then
      passLoop integrate reward_start end_height rest last_height (some st) rewards
    else if height > end_height then
      integrate st last_height end_height rewards
    else
      passLoop integrate reward_start end_height rest height (some st)
        (if height > reward_start then
          integrate st (max last_height reward_start) height rewards
        else rewards)

/-- prepare_distribution's entry into the loop: last_height starts at
reward_start = max(settings.reward_start_height, start_height). -/
def preparePassLoop {σ ρ : Type} (integrate : σ → ℕ → ℕ → ρ → ρ)
    (reward_start_height start_height end_height : ℕ)
    (snaps : List (ℕ × σ)) (r0 : ρ) : ρ :=
  passLoop integrate (max reward_start_height start_height) end_height snaps
    (max reward_start_height start_height) none r0

/-- The claim's reading of the pass loop, written from the spec's words:
on the first snapshot beyond end_height the loop stops, and only the
snapshot state last seen within range feeds the final segment to
end_height. -/
def specPassLoop {σ ρ : Type} (integrate : σ → ℕ → ℕ → ρ → ρ)
    (reward_start end_height : ℕ) :
    List (ℕ × σ) → ℕ → Option σ → ρ → ρ
  | [], last_height, lastSnap, rewards =>
    match lastSnap with
    | some st => integrate st last_height end_height rewards
    | none => rewards
  | (height, st) :: rest, last_height, lastSnap, rewards =>
    if height > end_height then
      match lastSnap with
      | some st' => integrate st' last_height end_height rewards
      | none => rewards
    else
      specPassLoop integrate reward_start end_height rest height (some st)
        (if height > reward_start then
          integrate st (max last_height reward_start) height rewards
        else rewards)

/-- An integration action that records which state was integrated over
which segment. -/
def segRecorder {σ : Type} : σ → ℕ → ℕ → List (σ × ℕ × ℕ) → List (σ × ℕ × ℕ) :=
  fun st a b acc => acc ++ [(st, a, b)]

/-- C7 counterexample.  With end_height 10 and snapshots at heights 5
(state 111) and 20 (state 222), the code integrates the final segment
[5, 10] with state 222 — the state of the snapshot at height 20 > 10 —
while the claim says only post-exhaustion integration happens and no
beyond-end snapshot state contributes (the spec-reading loop uses state
111 for that segment). -/
theorem beyond_end_snapshot_contributes :
    preparePassLoop segRecorder 0 0 10 [(5, (111 : ℕ)), (20, 222)] [] =
        [(111, 0, 5), (222, 5, 10)] ∧
      specPassLoop segRecorder 0 10 [(5, (111 : ℕ)), (20, 222)] 0 none [] =
        [(111, 0, 5), (111, 5, 10)] ∧
      ([(111, 0, 5), (222, 5, 10)] : List (ℕ × ℕ × ℕ)) ≠ [(111, 0, 5), (111, 5, 10)] := by
  refine ⟨by decide, by decide, by decide⟩

/-- C7 (amended).  The pass loop maintains last_height from
max(reward_start_height, start_height), skips snapshots at the current
last_height, stops at the first snapshot beyond end_height, and
integrates in-range segments [max(last_height, reward_start), height];
every integrated segment ends at or before end_height and the final
segment ends exactly at end_height — but the final segment is integrated
with the most recently yielded snapshot's state, which is the beyond-end
snapshot itself when the loop stopped early (see the counterexample),
not necessarily a state from within [start_height, end_height]. -/
theorem passLoop_segments_bounded {σ : Type} (reward_start end_height : ℕ)
    (snaps : List (ℕ × σ)) (last_height : ℕ) (lastSnap : Option σ)
    (acc : List (σ × ℕ × ℕ)) :
    (∀ seg ∈ passLoop segRecorder reward_start end_height snaps last_height lastSnap acc,
      seg ∈ acc ∨ seg.2.2 ≤ end_height) ∧
    (snaps ≠ [] ∨ lastSnap ≠ none →
      ∃ st lh, (passLoop segRecorder reward_start end_height snaps last_height lastSnap
          acc).getLast? = some (st, lh, end_height)) := by
  induction snaps generalizing last_height lastSnap acc with
  | nil =>
    cases hls : lastSnap with
    | none =>
      constructor
      · intro seg hseg
        simp only [passLoop] at hseg
        exact Or.inl hseg
      · intro hne
        rcases hne with hne | hne
        · exact absurd rfl hne
        · exact absurd rfl hne
    | some st =>
      constructor
      · intro seg hseg
        simp only [passLoop, segRecorder, List.mem_append, List.mem_singleton] at hseg
        rcases hseg with hseg | hseg
        · exact Or.inl hseg
        · subst hseg; exact Or.inr le_rfl
      · intro _
        exact ⟨st, last_height, by simp [passLoop, segRecorder]⟩
  | cons p rest ih =>
    obtain ⟨height, st⟩ := p
    constructor
    · intro seg hseg
      simp only [passLoop] at hseg
      split_ifs at hseg with h1 h2 h3
      · exact (ih last_height (some st) acc).1 seg hseg
      · simp only [segRecorder, List.mem_append, List.mem_singleton] at hseg
        rcases hseg with hseg | hseg
        · exact Or.inl hseg
        · subst hseg; exact Or.inr le_rfl
      · rcases (ih height (some st) _).1 seg hseg with hin | hle
        · simp only [segRecorder, List.mem_append, List.mem_singleton] at hin
          rcases hin with hin | hin
          · exact Or.inl hin
          · subst hin
            exact Or.inr (Nat.le_of_not_lt h2)
        · exact Or.inr hle
      · rcases (ih height (some st) _).1 seg hseg with hin | hle
        · exact Or.inl hin
        · exact Or.inr hle
    · intro _
      simp only [passLoop]
      split_ifs with h1 h2 h3
      · exact (ih last_height (some st) acc).2 (Or.inr (by simp))
      · exact ⟨st, last_height, by simp [segRecorder]⟩
      · exact (ih height (some st) _).2 (Or.inr (by simp))
      · exact (ih height (some st) _).2 (Or.inr (by simp))

/-- Witness for the amended C7 at the counterexample input. -/
theorem passLoop_segments_bounded_witness :
    ((111, 0, 5) ∈ passLoop segRecorder 0 10 [(5, (111 : ℕ)), (20, 222)] 0 none [] →
      ((111, 0, 5) : ℕ × ℕ × ℕ) ∈ ([] : List (ℕ × ℕ × ℕ)) ∨ 5 ≤ 10) ∧
      (∃ st lh, (passLoop segRecorder 0 10 [(5, (111 : ℕ)), (20, 222)] 0 none []).getLast?
        = some (st, lh, 10)) :=
  ⟨fun hm => (passLoop_segments_bounded 0 10 [(5, 111), (20, 222)] 0 none []).1 (111, 0, 5) hm,
   (passLoop_segments_bounded 0 10 [(5, 111), (20, 222)] 0 none []).2 (by decide)⟩

/-! ## C8: the ordered n-way merge (utils.py 17-68)

merge() first tries the synchronous heapq.merge (utils.py 29-33); for
the async generators this program feeds it, iter() raises TypeError
before anything is yielded, so only the async heap path matters.  That
path (key=None, reverse=False, utils.py 45-68) keeps a heap of
[value, order, next] lists: value is the (height, tiebreaker,
(item_type, item)) triple from prepare_items, order the source index.
CPython compares the lists lexicographically: height, then tiebreaker,
then the event type string; a full tie would go on to compare the event
payloads (dicts — a TypeError) and finally the order index.  The model
breaks the measure-zero full tie by the order index directly, leaving
every comparison total; since order indices are distinct, the comparator
is a strict total order and the pop sequence of the binary heap is the
pop sequence of a sorted list, which is how the heap is modelled
(heapify = sort, heappop = drop the head, heapreplace = insert into the
tail). -/

structure MEntry (π : Type) where
  height : ℕ
  tiebreaker : ℚ
  typ : String
  payload : π
deriving DecidableEq, Repr

/-- The output order the contract promises: non-decreasing
(height, tiebreaker). -/
def htLE {π : Type} (a b : MEntry π) : Prop :=
  a.height < b.height ∨ (a.height = b.height ∧ a.tiebreaker ≤ b.tiebreaker)

instance htLE_decidable {π : Type} : DecidableRel (@htLE π) := fun a b => by
  unfold htLE; infer_instance

/-- A live source in the heap: its pulled head, its order index, its
remaining elements ([value, order, next] in the source). -/
structure Src (π : Type) where
  value : MEntry π
  order : ℕ
  rest : List (MEntry π)

/-- The heap comparison (CPython list/tuple comparison of
[value, order, next], with the unorderable payload tie broken by order;
see the section comment). -/
def srcLE {π : Type} (a b : Src π) : Prop :=
  a.value.height < b.value.height ∨
    (a.value.height = b.value.height ∧
      (a.value.tiebreaker < b.value.tiebreaker ∨
        (a.value.tiebreaker = b.value.tiebreaker ∧
          (a.value.typ < b.value.typ ∨
            (a.value.typ = b.value.typ ∧ a.order ≤ b.order)))))

instance srcLE_decidable {π : Type} : DecidableRel (@srcLE π) := fun a b => by
  unfold srcLE; infer_instance

theorem srcLE_total {π : Type} (a b : Src π) : srcLE a b ∨ srcLE b a := by
  unfold srcLE
  rcases lt_trichotomy a.value.height b.value.height with h | h | h
  · exact Or.inl (Or.inl h)
  · rcases lt_trichotomy a.value.tiebreaker b.value.tiebreaker with ht | ht | ht
    · exact Or.inl (Or.inr ⟨h, Or.inl ht⟩)
    · rcases lt_trichotomy a.value.typ b.value.typ with hs | hs | hs
      · exact Or.inl (Or.inr ⟨h, Or.inr ⟨ht, Or.inl hs⟩⟩)
      · rcases Nat.le_total a.order b.order with ho | ho
        · exact Or.inl (Or.inr ⟨h, Or.inr ⟨ht, Or.inr ⟨hs, ho⟩⟩⟩)
        · exact Or.inr (Or.inr ⟨h.symm, Or.inr ⟨ht.symm, Or.inr ⟨hs.symm, ho⟩⟩⟩)
      · exact Or.inr (Or.inr ⟨h.symm, Or.inr ⟨ht.symm, Or.inl hs⟩⟩)
    · exact Or.inr (Or.inr ⟨h.symm, Or.inl ht⟩)
  · exact Or.inr (Or.inl h)

theorem srcLE_trans {π : Type} (a b c : Src π) (hab : srcLE a b) (hbc : srcLE b c) :
    srcLE a c := by
  unfold srcLE at hab hbc ⊢
  rcases hab with hab | ⟨he1, hab⟩
  · rcases hbc with hbc | ⟨he2, _⟩
    · exact Or.inl (hab.trans hbc)
    · exact Or.inl (he2 ▸ hab)
  · rcases hbc with hbc | ⟨he2, hbc⟩
    · exact Or.inl (he1 ▸ hbc)
    · refine Or.inr ⟨he1.trans he2, ?_⟩
      rcases hab with hab | ⟨ht1, hab⟩
      · rcases hbc with hbc | ⟨ht2, _⟩
        · exact Or.inl (hab.trans hbc)
        · exact Or.inl (ht2 ▸ hab)
      · rcases hbc with hbc | ⟨ht2, hbc⟩
        · exact Or.inl (ht1 ▸ hbc)
        · refine Or.inr ⟨ht1.trans ht2, ?_⟩
          rcases hab with hab | ⟨hs1, hab⟩
          · rcases hbc with hbc | ⟨hs2, _⟩
            · exact Or.inl (hab.trans hbc)
            · exact Or.inl (hs2 ▸ hab)
          · rcases hbc with hbc | ⟨hs2, hbc⟩
            · exact Or.inl (hs1 ▸ hbc)
            · exact Or.inr ⟨hs1.trans hs2, hab.trans hbc⟩

instance srcLE_isTotal {π : Type} : IsTotal (Src π) srcLE := ⟨srcLE_total⟩

instance srcLE_isTrans {π : Type} : IsTrans (Src π) srcLE := ⟨srcLE_trans⟩

/-- The heap order refines the promised output order on the head
values. -/
theorem srcLE_htLE {π : Type} (a b : Src π) (h : srcLE a b) : htLE a.value b.value := by
  unfold srcLE at h
  unfold htLE
  rcases h with h | ⟨he, h⟩
  · exact Or.inl h
  · refine Or.inr ⟨he, ?_⟩
    rcases h with h | ⟨ht, _⟩
    · exact le_of_lt h
    · exact le_of_eq ht

/-- Initial heap construction (utils.py 46-52): pull the head of every
non-empty source, tagging it with the source index; heapify. -/
def mergeInit {π : Type} (sources : List (List (MEntry π))) : List (Src π) :=
  (sources.enum.filterMap fun p =>
    match p.2 with
    | [] => none
    | v :: vs => some ⟨v, p.1, vs⟩)

def srcSize {π : Type} (s : Src π) : ℕ := 1 + s.rest.length

def sizeSum {π : Type} (heap : List (Src π)) : ℕ := (heap.map srcSize).sum

/-- One heap step after yielding the minimum (utils.py 58-61): advance
the exhausted source out of the heap (heappop) or re-insert its next
head (heapreplace). -/
def advance {π : Type} (s : Src π) (hs : List (Src π)) : List (Src π) :=
  match s.rest with
  | [] => hs
  | v :: vs => List.orderedInsert srcLE ⟨v, s.order, vs⟩ hs

theorem sizeSum_orderedInsert {π : Type} (x : Src π) (hs : List (Src π)) :
    sizeSum (List.orderedInsert srcLE x hs) = srcSize x + sizeSum hs := by
  have hperm := List.perm_orderedInsert srcLE x hs
  unfold sizeSum
  rw [(hperm.map srcSize).sum_eq]
  simp

theorem sizeSum_advance {π : Type} (s : Src π) (hs : List (Src π)) :
    sizeSum (advance s hs) = s.rest.length + sizeSum hs := by
  unfold advance
  cases hx : s.rest with
  | nil => simp
  | cons v vs =>
    rw [sizeSum_orderedInsert]
    simp [srcSize, hx, Nat.add_comm]

/-- The loop of the async merge (utils.py 53-67): while more than one
source is live, yield the minimum and advance it; with one source left,
yield its head and drain it (the fast case). -/
def mergeLoop {π : Type} : List (Src π) → List (MEntry π)
  | [] => []
  | [s] => s.value :: s.rest
  | s :: hs => s.value :: mergeLoop (advance s hs)
termination_by heap => sizeSum heap
decreasing_by
  rw [sizeSum_advance]
  simp only [sizeSum, List.map_cons, List.sum_cons, srcSize]
  omega

/-- merge(*sources) on materialized sources. -/
def mergeAll {π : Type} (sources : List (List (MEntry π))) : List (MEntry π) :=
  mergeLoop (List.insertionSort srcLE (mergeInit sources))

/-- The concatenation of the heap's live sources, in heap order. -/
def srcFlat {π : Type} (heap : List (Src π)) : List (MEntry π) :=
  heap.flatMap fun s => s.value :: s.rest

theorem srcFlat_advance {π : Type} (s : Src π) (hs : List (Src π)) :
    (srcFlat (advance s hs)).Perm (s.rest ++ srcFlat hs) := by
  unfold advance
  cases s.rest with
  | nil => simp [srcFlat]
  | cons v vs =>
    have hperm :=
      (List.perm_orderedInsert srcLE (⟨v, s.order, vs⟩ : Src π) hs).flatMap_right
        (fun t => t.value :: t.rest)
    simpa [srcFlat] using hperm

theorem mergeLoop_perm {π : Type} (heap : List (Src π)) :
    (mergeLoop heap).Perm (srcFlat heap) := by
  induction heap using mergeLoop.induct with
  | case1 => simp [mergeLoop, srcFlat]
  | case2 s => simp [mergeLoop, srcFlat]
  | case3 s hs hne ih =>
    simp only [mergeLoop]
    have hstep := ih.trans (srcFlat_advance s hs)
    have : srcFlat (s :: hs) = s.value :: (s.rest ++ srcFlat hs) := by
      simp [srcFlat]
    rw [this]
    exact hstep.cons s.value

theorem srcFlat_mergeInit {π : Type} (sources : List (List (MEntry π))) :
    srcFlat (mergeInit sources) = sources.flatMap fun l => l := by
  have key : ∀ (n : ℕ) (ls : List (List (MEntry π))),
      srcFlat ((List.enumFrom n ls).filterMap fun p =>
        match p.2 with
        | [] => none
        | v :: vs => some ⟨v, p.1, vs⟩) = ls.flatMap fun l => l := by
    intro n ls
    induction ls generalizing n with
    | nil => rfl
    | cons l ls ih =>
      cases l with
      | nil =>
        simpa [List.enumFrom, srcFlat] using ih (n + 1)
      | cons v vs =>
        simp only [List.enumFrom, List.filterMap_cons, srcFlat, List.flatMap_cons]
        rw [← srcFlat, ih (n + 1)]
  exact key 0 sources

theorem mergeInit_mem {π : Type} {sources : List (List (MEntry π))} {t : Src π}
    (ht : t ∈ mergeInit sources) : t.value :: t.rest ∈ sources := by
  unfold mergeInit at ht
  rcases List.mem_filterMap.mp ht with ⟨p, hp, hf⟩
  have hmem : p.2 ∈ sources := by
    have hq := List.mem_enum_iff_get?.mp hp
    exact List.get?_mem hq
  cases hq : p.2 with
  | nil => rw [hq] at hf; exact absurd hf (by simp)
  | cons v vs =>
    rw [hq] at hf
    simp only [Option.some.injEq] at hf
    rw [← hf]
    exact hq ▸ hmem

theorem mergeInit_mem_of {π : Type} {sources : List (List (MEntry π))}
    {v : MEntry π} {vs : List (MEntry π)} (hl : v :: vs ∈ sources) :
    ∃ i, (⟨v, i, vs⟩ : Src π) ∈ mergeInit sources := by
  rcases List.mem_iff_get.mp hl with ⟨n, hn⟩
  refine ⟨n.1, ?_⟩
  unfold mergeInit
  refine List.mem_filterMap.mpr ⟨(n.1, v :: vs), ?_, rfl⟩
  refine List.mem_enum_iff_get?.mpr ?_
  rw [List.get?_eq_get n.2]
  exact congrArg some hn

theorem htLE_trans {π : Type} (a b c : MEntry π) (hab : htLE a b) (hbc : htLE b c) :
    htLE a c := by
  unfold htLE at hab hbc ⊢
  rcases hab with hab | ⟨he1, hab⟩
  · rcases hbc with hbc | ⟨he2, _⟩
    · exact Or.inl (hab.trans hbc)
    · exact Or.inl (he2 ▸ hab)
  · rcases hbc with hbc | ⟨he2, hbc⟩
    · exact Or.inl (he1 ▸ hbc)
    · exact Or.inr ⟨he1.trans he2, hab.trans hbc⟩

theorem advance_sorted {π : Type} (s : Src π) (hs : List (Src π))
    (h : hs.Sorted srcLE) : (advance s hs).Sorted srcLE := by
  unfold advance
  cases s.rest with
  | nil => exact h
  | cons v vs => exact List.Sorted.orderedInsert _ _ h

theorem advance_wf {π : Type} (s : Src π) (hs : List (Src π))
    (h : ∀ t ∈ s :: hs, (t.value :: t.rest).Sorted htLE) :
    ∀ t ∈ advance s hs, (t.value :: t.rest).Sorted htLE := by
  intro t ht
  have hhead := h s (List.mem_cons_self s hs)
  rcases hr : s.rest with _ | ⟨v, vs⟩
  · rw [advance, hr] at ht
    exact h t (List.mem_cons_of_mem s ht)
  · rw [advance, hr] at ht
    rcases (List.mem_orderedInsert srcLE).mp ht with rfl | hmem
    · rw [hr] at hhead
      exact (List.sorted_cons.mp hhead).2
    · exact h t (List.mem_cons_of_mem s hmem)

theorem advance_min {π : Type} (s : Src π) (hs : List (Src π))
    (hsrt : (s :: hs).Sorted srcLE) (hself : (s.value :: s.rest).Sorted htLE) :
    ∀ t ∈ advance s hs, htLE s.value t.value := by
  intro t ht
  have htail : ∀ t ∈ hs, htLE s.value t.value := fun t hmem =>
    srcLE_htLE s t ((List.sorted_cons.mp hsrt).1 t hmem)
  rcases hr : s.rest with _ | ⟨v, vs⟩
  · rw [advance, hr] at ht
    exact htail t ht
  · rw [advance, hr] at ht
    rcases (List.mem_orderedInsert srcLE).mp ht with rfl | hmem
    · rw [hr] at hself
      exact (List.sorted_cons.mp hself).1 v (List.mem_cons_self v vs)
    · exact htail t hmem

theorem mergeLoop_sorted {π : Type} (heap : List (Src π)) :
    heap.Sorted srcLE → (∀ t ∈ heap, (t.value :: t.rest).Sorted htLE) →
    (mergeLoop heap).Sorted htLE := by
  induction heap using mergeLoop.induct with
  | case1 => intro _ _; simp [mergeLoop]
  | case2 s =>
    intro _ h2
    simpa [mergeLoop] using h2 s (List.mem_cons_self s [])
  | case3 s hs hne ih =>
    intro h1 h2
    simp only [mergeLoop]
    rw [List.sorted_cons]
    refine ⟨?_, ih (advance_sorted s hs (List.sorted_cons.mp h1).2) (advance_wf s hs h2)⟩
    intro e he
    have hmem := (mergeLoop_perm (advance s hs)).subset he
    rcases List.mem_flatMap.mp hmem with ⟨t, ht, hin⟩
    have hdom : htLE s.value t.value :=
      advance_min s hs h1 (h2 s (List.mem_cons_self s hs)) t ht
    rcases List.mem_cons.mp hin with rfl | hrest
    · exact hdom
    · have hts := advance_wf s hs h2 t ht
      exact htLE_trans _ _ _ hdom ((List.sorted_cons.mp hts).1 e hrest)

theorem mergeLoop_sublist {π : Type} (heap : List (Src π)) :
    ∀ t ∈ heap, (t.value :: t.rest).Sublist (mergeLoop heap) := by
  induction heap using mergeLoop.induct with
  | case1 => intro t ht; exact absurd ht (by simp)
  | case2 s =>
    intro t ht
    rcases List.mem_singleton.mp ht with rfl
    simp [mergeLoop]
  | case3 s hs hne ih =>
    intro t ht
    simp only [mergeLoop]
    rcases List.mem_cons.mp ht with rfl | hmem
    · refine List.Sublist.cons₂ _ ?_
      rcases hr : t.rest with _ | ⟨v, vs⟩
      · exact List.nil_sublist _
      · have hm : (⟨v, t.order, vs⟩ : Src π) ∈ advance t hs := by
          rw [advance, hr]
          exact (List.mem_orderedInsert srcLE).mpr (Or.inl rfl)
        exact ih _ hm
    · have hm : t ∈ advance s hs := by
        rcases hr : s.rest with _ | ⟨v, vs⟩
        · rw [advance, hr]; exact hmem
        · rw [advance, hr]
          exact (List.sublist_orderedInsert _ _).subset hmem
      exact (ih t hm).cons _

/-- C8.  merge (utils.py 17-68) on N finite sources, each non-decreasing
in (height, tiebreaker): the output is a permutation of the
concatenation of the sources (every element of every source appears
exactly once), it is globally non-decreasing in (height, tiebreaker),
and each source is a subsequence of the output, so per-source relative
order is preserved (in particular for equal keys). -/
theorem merge_contract {π : Type} (sources : List (List (MEntry π)))
    (hsort : ∀ l ∈ sources, l.Sorted htLE) :
    (mergeAll sources).Perm (sources.flatMap fun l => l) ∧
      (mergeAll sources).Sorted htLE ∧
      ∀ l ∈ sources, l.Sublist (mergeAll sources) := by
  refine ⟨?_, ?_, ?_⟩
  · have h1 := mergeLoop_perm (List.insertionSort srcLE (mergeInit sources))
    have h2 : (srcFlat (List.insertionSort srcLE (mergeInit sources))).Perm
        (srcFlat (mergeInit sources)) :=
      (List.perm_insertionSort srcLE (mergeInit sources)).flatMap_right _
    rw [srcFlat_mergeInit] at h2
    exact h1.trans h2
  · apply mergeLoop_sorted
    · exact List.sorted_insertionSort srcLE _
    · intro t ht
      exact hsort _ (mergeInit_mem ((List.mem_insertionSort srcLE).mp ht))
  · intro l hl
    rcases l with _ | ⟨v, vs⟩
    · exact List.nil_sublist _
    · rcases mergeInit_mem_of hl with ⟨i, hi⟩
      exact mergeLoop_sublist _ (⟨v, i, vs⟩ : Src π)
        ((List.mem_insertionSort srcLE).mpr hi)

/-- Two concrete sources for the merge witness, each sorted by
(height, tiebreaker). -/
def mergeSources : List (List (MEntry ℕ)) :=
  [[⟨1, 0, "balance-update", 10⟩, ⟨3, 0, "balance-update", 11⟩],
   [⟨2, 0, "staking-update", 20⟩, ⟨4, 0, "staking-update", 21⟩]]

/-- Witness for C8 at two concrete two-element sources. -/
theorem merge_contract_witness :
    (∀ l ∈ mergeSources, l.Sorted htLE) ∧
      ((mergeAll mergeSources).Perm (mergeSources.flatMap fun l => l) ∧
        (mergeAll mergeSources).Sorted htLE ∧
        ∀ l ∈ mergeSources, l.Sublist (mergeAll mergeSources)) :=
  ⟨by decide, merge_contract mergeSources (by decide)⟩

/-! ## Further association-list lemmas, toward the reachability
invariant backing C9 and C10. -/

theorem dcontains_iff_mem_dkeys {α : Type} (l : List (String × α)) (k : String) :
    dcontains l k = true ↔ k ∈ dkeys l := by
  induction l with
  | nil => simp [dcontains, dkeys]
  | cons p rest ih =>
    rw [dcontains, dkeys_cons]
    by_cases hp : p.1 = k
    · simp [hp]
    · simp [hp, ih, Ne.symm hp]

theorem dlookup_derase_ne {α : Type} (l : List (String × α)) (k a : String)
    (h : a ≠ k) : dlookup (derase l k) a = dlookup l a := by
  induction l with
  | nil => simp [derase]
  | cons p rest ih =>
    by_cases hp : p.1 = k
    · rw [derase, if_pos hp, dlookup, if_neg (by rw [hp]; exact Ne.symm h)]
    · rw [derase, if_neg hp, dlookup, dlookup]
      by_cases hq : p.1 = a
      · rw [if_pos hq, if_pos hq]
      · rw [if_neg hq, if_neg hq, ih]

theorem dcontains_dinsert_self {α : Type} (l : List (String × α)) (k : String) (v : α) :
    dcontains (dinsert l k v) k = true := by
  induction l with
  | nil => simp [dinsert, dcontains]
  | cons p rest ih =>
    by_cases hp : p.1 = k
    · simp [dinsert, hp, dcontains]
    · simp [dinsert, hp, dcontains, ih]

theorem dkeys_derase_sublist {α : Type} (l : List (String × α)) (k : String) :
    (dkeys (derase l k)).Sublist (dkeys l) := by
  induction l with
  | nil => simp [derase, dkeys]
  | cons p rest ih =>
    by_cases hp : p.1 = k
    · rw [derase, if_pos hp, dkeys_cons]
      exact List.sublist_cons_self p.1 (dkeys rest)
    · rw [derase, if_neg hp, dkeys_cons, dkeys_cons]
      exact ih.cons₂ p.1

theorem dkeys_derase_nodup {α : Type} (l : List (String × α)) (k : String)
    (h : (dkeys l).Nodup) : (dkeys (derase l k)).Nodup :=
  h.sublist (dkeys_derase_sublist l k)

theorem dcontains_derase_self {α : Type} (l : List (String × α)) (k : String)
    (h : (dkeys l).Nodup) : dcontains (derase l k) k = false := by
  rw [dcontains_eq_isSome_dlookup, dlookup_derase_self l k h]
  rfl

theorem dkeys_mapval {α β : Type} (l : List (String × α)) (f : String → β) :
    dkeys (l.map fun p => (p.1, f p.1)) = dkeys l := by
  induction l with
  | nil => rfl
  | cons p rest ih => rw [List.map_cons, dkeys_cons, dkeys_cons, ih]

theorem dcontains_mapval {α β : Type} (l : List (String × α)) (f : String → β)
    (a : String) : dcontains (l.map fun p => (p.1, f p.1)) a = dcontains l a := by
  induction l with
  | nil => rfl
  | cons p rest ih => rw [List.map_cons, dcontains, dcontains, ih]

theorem dlookup_mapval {α β : Type} (l : List (String × α)) (f : String → β)
    (k : String) :
    dlookup (l.map fun p => (p.1, f p.1)) k = (dlookup l k).map fun _ => f k := by
  induction l with
  | nil => rfl
  | cons p rest ih =>
    by_cases hp : p.1 = k
    · subst hp
      rw [List.map_cons, dlookup, dlookup, if_pos rfl, if_pos rfl]
      rfl
    · rw [List.map_cons, dlookup, dlookup, if_neg hp, if_neg hp, ih]

theorem dinsert_eq_append {α : Type} (l : List (String × α)) (k : String) (v : α)
    (h : dcontains l k = false) : dinsert l k v = l ++ [(k, v)] := by
  induction l with
  | nil => rfl
  | cons p rest ih =>
    simp only [dcontains, Bool.or_eq_false_iff] at h
    have hp : p.1 ≠ k := by
      intro hh; rw [hh] at h; simp at h
    rw [dinsert, if_neg hp, ih h.2, List.cons_append]

theorem derase_append {α : Type} (l : List (String × α)) (a : String) (v : α)
    (h : dcontains l a = false) : derase (l ++ [(a, v)]) a = l := by
  induction l with
  | nil => simp [derase]
  | cons p rest ih =>
    simp only [dcontains, Bool.or_eq_false_iff] at h
    have hp : p.1 ≠ a := by
      intro hh; rw [hh] at h; simp at h
    rw [List.cons_append, derase, if_neg hp, ih h.2]

theorem mem_dlookupD {α : Type} (l : List (String × List α)) (a : String) (k : α)
    (h : k ∈ dlookupD l a []) : ∃ v, dlookup l a = some v ∧ k ∈ v := by
  unfold dlookupD at h
  cases hl : dlookup l a with
  | none => rw [hl] at h; simp at h
  | some v => rw [hl] at h; exact ⟨v, rfl, h⟩

theorem dlookupD_dinsert {α : Type} (l : List (String × α)) (k : String) (v d : α) :
    dlookupD (dinsert l k v) k d = v := by
  rw [dlookupD, dlookup_dinsert]; rfl

theorem dlookupD_dinsert_ne {α : Type} (l : List (String × α)) (k a : String) (v d : α)
    (h : k ≠ a) : dlookupD (dinsert l k v) a d = dlookupD l a d := by
  rw [dlookupD, dlookup_dinsert_ne _ _ _ _ h, dlookupD]

theorem dlookupD_derase_ne {α : Type} (l : List (String × α)) (k a : String) (d : α)
    (h : a ≠ k) : dlookupD (derase l k) a d = dlookupD l a d := by
  rw [dlookupD, dlookup_derase_ne _ _ _ h, dlookupD]

theorem erase_eq_nil {α : Type} [DecidableEq α] (l : List α) (x : α)
    (h : l.erase x = []) : l = [] ∨ l = [x] := by
  cases l with
  | nil => exact Or.inl rfl
  | cons y ys =>
    rw [List.erase_cons] at h
    by_cases hy : y = x
    · simp only [hy, beq_self_eq_true, if_true] at h
      exact Or.inr (by rw [hy, h])
    · simp [hy] at h

/-- The reachability invariant backing C9 and C10: the node index, the
stake index and every node's stakers dict have duplicate-free keys
(Python dict keys are unique), and membership is consistent backward:
an address recorded as a staker of core node k appears in
address_staking with k in its stake list. -/
def Inv (s : St) : Prop :=
  (dkeys s.nodes).Nodup ∧
  (dkeys s.address_staking).Nodup ∧
  (∀ k node, dlookup s.nodes k = some node → (dkeys node.stakers).Nodup) ∧
  (∀ k node a, dlookup s.nodes k = some node → dcontains node.stakers a = true →
    k ∈ dlookupD s.address_staking a [])

theorem Inv_congr (s s' : St) (hn : s'.nodes = s.nodes)
    (ha : s'.address_staking = s.address_staking) (h : Inv s) : Inv s' := by
  obtain ⟨h1, h2, h3, h4⟩ := h
  refine ⟨by rw [hn]; exact h1, by rw [ha]; exact h2, ?_, ?_⟩
  · intro k node hk
    rw [hn] at hk
    exact h3 _ _ hk
  · intro k node a hk hc
    rw [hn] at hk
    rw [ha]
    exact h4 _ _ _ hk hc

/-- Replacing one existing node by a node with the same stakers keys
preserves the invariant. -/
theorem Inv_updateNode (s : St) (nh : String) (node node' : CoreNode)
    (hl : dlookup s.nodes nh = some node)
    (hkeys : dkeys node'.stakers = dkeys node.stakers)
    (h : Inv s) : Inv { s with nodes := dinsert s.nodes nh node' } := by
  obtain ⟨h1, h2, h3, h4⟩ := h
  refine ⟨dkeys_dinsert_nodup _ _ _ h1, h2, ?_, ?_⟩
  · intro k nx hk
    dsimp only at hk
    by_cases hkn : nh = k
    · subst hkn
      rw [dlookup_dinsert] at hk
      injection hk with hk
      rw [← hk, hkeys]
      exact h3 _ _ hl
    · rw [dlookup_dinsert_ne _ _ _ _ hkn] at hk
      exact h3 _ _ hk
  · intro k nx a hk hc
    dsimp only at hk ⊢
    by_cases hkn : nh = k
    · subst hkn
      rw [dlookup_dinsert] at hk
      injection hk with hk
      rw [← hk] at hc
      rw [dcontains_iff_mem_dkeys, hkeys, ← dcontains_iff_mem_dkeys] at hc
      exact h4 _ _ _ hl hc
    · rw [dlookup_dinsert_ne _ _ _ _ hkn] at hk
      exact h4 _ _ _ hk hc

theorem updateNodeStats_inv (cfg : Cfg) (s : St) (nh : String) (h : Inv s) :
    Inv (updateNodeStats cfg s nh) := by
  unfold updateNodeStats
  cases hl : dlookup s.nodes nh with
  | none => exact h
  | some node =>
    exact Inv_updateNode s nh node _ hl
      (dkeys_mapval node.stakers (fun x =>
        pyIntDiv (dlookupD s.balances x 0) (dlookupD s.address_staking x []).length)) h

theorem updateAll_inv (cfg : Cfg) (l : List String) (s : St) (h : Inv s) :
    Inv (updateAll cfg s l) := by
  induction l generalizing s with
  | nil => exact h
  | cons nh rest ih => exact ih _ (updateNodeStats_inv cfg s nh h)

theorem dropStakersOf_nodes (nh : String) (lst : List (String × ℕ)) (s : St)
    (upd : List String) : (dropStakersOf nh lst s upd).1.nodes = s.nodes := by
  induction lst generalizing s upd with
  | nil => rfl
  | cons p rest ih =>
    rw [dropStakersOf]
    split_ifs <;> rw [ih]

theorem dropStakersOf_astaking_nodup (nh : String) (lst : List (String × ℕ)) (s : St)
    (upd : List String) (h : (dkeys s.address_staking).Nodup) :
    (dkeys (dropStakersOf nh lst s upd).1.address_staking).Nodup := by
  induction lst generalizing s upd with
  | nil => exact h
  | cons p rest ih =>
    rw [dropStakersOf]
    split_ifs with hlen
    · exact ih _ _ (dkeys_derase_nodup _ _ h)
    · exact ih _ _ (dkeys_dinsert_nodup _ _ _ h)

/-- Stake-list membership of any node other than the dropped one survives
the staker loop of remove_node. -/
theorem dropStakersOf_mem (nh : String) (lst : List (String × ℕ)) (s : St)
    (upd : List String) (a k : String) (hk : k ≠ nh)
    (hmem : k ∈ dlookupD s.address_staking a []) :
    k ∈ dlookupD (dropStakersOf nh lst s upd).1.address_staking a [] := by
  induction lst generalizing s upd with
  | nil => exact hmem
  | cons p rest ih =>
    rw [dropStakersOf]
    split_ifs with hlen
    · by_cases hsa : a = p.1
      · subst hsa
        exfalso
        rw [List.length_eq_zero] at hlen
        rcases erase_eq_nil _ _ hlen with hnil | hone
        · rw [hnil] at hmem; exact absurd hmem (by simp)
        · rw [hone] at hmem
          exact hk (List.mem_singleton.mp hmem)
      · exact ih _ _ (by rw [dlookupD_derase_ne _ _ _ _ hsa]; exact hmem)
    · by_cases hsa : a = p.1
      · subst hsa
        refine ih _ _ ?_
        rw [dlookupD_dinsert]
        exact (List.mem_erase_of_ne hk).mpr hmem
      · exact ih _ _ (by rw [dlookupD_dinsert_ne _ _ _ _ _ (Ne.symm hsa)]; exact hmem)

theorem removeNode_inv (cfg : Cfg) (s : St) (nh : String) (h : Inv s) :
    Inv (removeNode cfg s nh) := by
  obtain ⟨h1, h2, h3, h4⟩ := h
  unfold removeNode
  cases hl : dlookup s.nodes nh with
  | none => exact ⟨h1, h2, h3, h4⟩
  | some node =>
    rcases hds : dropStakersOf nh node.stakers s [] with ⟨s1, upd⟩
    have hfst : (dropStakersOf nh node.stakers s []).1 = s1 := by rw [hds]
    have hn1 : s1.nodes = s.nodes := by
      rw [← hfst, dropStakersOf_nodes]
    have ha1 : (dkeys s1.address_staking).Nodup := by
      rw [← hfst]
      exact dropStakersOf_astaking_nodup _ _ _ _ h2
    have hm1 : ∀ a k, k ≠ nh → k ∈ dlookupD s.address_staking a [] →
        k ∈ dlookupD s1.address_staking a [] := by
      intro a k hk hmem
      rw [← hfst]
      exact dropStakersOf_mem _ _ _ _ _ _ hk hmem
    dsimp only
    rw [hds]
    dsimp only
    apply updateAll_inv
    refine ⟨?_, ?_, ?_, ?_⟩
    · dsimp only
      rw [hn1]
      exact dkeys_derase_nodup _ _ h1
    · dsimp only
      exact ha1
    · intro k nodeX hk
      dsimp only at hk
      by_cases hkn : k = nh
      · subst hkn
        rw [hn1, dlookup_derase_self _ _ h1] at hk
        exact absurd hk (by simp)
      · rw [hn1, dlookup_derase_ne _ _ _ hkn] at hk
        exact h3 _ _ hk
    · intro k nodeX a hk hc
      dsimp only at hk ⊢
      by_cases hkn : k = nh
      · subst hkn
        rw [hn1, dlookup_derase_self _ _ h1] at hk
        exact absurd hk (by simp)
      · rw [hn1, dlookup_derase_ne _ _ _ hkn] at hk
        exact hm1 a k hkn (h4 _ _ _ hk hc)

/-- update_node_stats only rewrites stakers values: any node looked up
afterwards existed before with the same stakers keys. -/
theorem updateNodeStats_mono (cfg : Cfg) (s : St) (nh k : String) (node' : CoreNode)
    (hk : dlookup (updateNodeStats cfg s nh).nodes k = some node') :
    ∃ node, dlookup s.nodes k = some node ∧
      dkeys node'.stakers = dkeys node.stakers := by
  unfold updateNodeStats at hk
  cases hl : dlookup s.nodes nh with
  | none => rw [hl] at hk; exact ⟨node', hk, rfl⟩
  | some node =>
    rw [hl] at hk
    dsimp only at hk
    by_cases hkn : nh = k
    · subst hkn
      rw [dlookup_dinsert] at hk
      injection hk with hk
      refine ⟨node, hl, ?_⟩
      rw [← hk]
      exact dkeys_mapval node.stakers (fun x =>
        pyIntDiv (dlookupD s.balances x 0) (dlookupD s.address_staking x []).length)
    · rw [dlookup_dinsert_ne _ _ _ _ hkn] at hk
      exact ⟨node', hk, rfl⟩

theorem updateNodeStats_nodes_nodup (cfg : Cfg) (s : St) (nh : String)
    (h : (dkeys s.nodes).Nodup) : (dkeys (updateNodeStats cfg s nh).nodes).Nodup := by
  unfold updateNodeStats
  cases dlookup s.nodes nh with
  | none => exact h
  | some node => exact dkeys_dinsert_nodup _ _ _ h

/-- The remove_stake loop only erases stakers entries and rewrites
values: any node looked up afterwards existed before, with its stakers
keys a sublist of the earlier ones. -/
theorem removeStakeLoop_mono (cfg : Cfg) (a0 : String) (onh : Option String)
    (lst : List String) :
    ∀ (s : St) (k : String) (node' : CoreNode),
      dlookup (removeStakeLoop cfg a0 onh lst s).nodes k = some node' →
      ∃ node, dlookup s.nodes k = some node ∧
        (dkeys node'.stakers).Sublist (dkeys node.stakers) := by
  induction lst with
  | nil => exact fun s k node' hk => ⟨node', hk, List.Sublist.refl _⟩
  | cons nh rest ih =>
    intro s k node' hk
    rw [removeStakeLoop] at hk
    obtain ⟨nodeM, hM, hsubM⟩ := ih _ _ _ hk
    obtain ⟨nodeP, hP, heP⟩ := updateNodeStats_mono _ _ _ _ _ hM
    rw [heP] at hsubM
    by_cases hg : onh = none ∨ onh = some nh
    · rw [if_pos hg] at hP
      cases hl : dlookup s.nodes nh with
      | none => rw [hl] at hP; exact ⟨nodeP, hP, hsubM⟩
      | some node =>
        rw [hl] at hP
        dsimp only at hP
        by_cases hkn : nh = k
        · subst hkn
          rw [dlookup_dinsert] at hP
          injection hP with hP
          refine ⟨node, hl, ?_⟩
          rw [← hP] at hsubM
          exact hsubM.trans (dkeys_derase_sublist _ _)
        · rw [dlookup_dinsert_ne _ _ _ _ hkn] at hP
          exact ⟨nodeP, hP, hsubM⟩
    · rw [if_neg hg] at hP
      exact ⟨nodeP, hP, hsubM⟩

theorem removeStakeLoop_nodes_nodup (cfg : Cfg) (a0 : String) (onh : Option String)
    (lst : List String) :
    ∀ (s : St), (dkeys s.nodes).Nodup →
      (dkeys (removeStakeLoop cfg a0 onh lst s).nodes).Nodup := by
  induction lst with
  | nil => exact fun s h => h
  | cons nh rest ih =>
    intro s h
    rw [removeStakeLoop]
    refine ih _ (updateNodeStats_nodes_nodup _ _ _ ?_)
    split_ifs with hg
    · cases dlookup s.nodes nh with
      | none => exact h
      | some node => exact dkeys_dinsert_nodup _ _ _ h
    · exact h

/-- After the remove_stake loop, the staker is gone from every targeted
node's stakers dict. -/
theorem removeStakeLoop_removed (cfg : Cfg) (a0 : String) (onh : Option String)
    (lst : List String) :
    ∀ (s : St) (k : String) (node' : CoreNode),
      (∀ k2 n2, dlookup s.nodes k2 = some n2 → (dkeys n2.stakers).Nodup) →
      k ∈ lst → (onh = none ∨ onh = some k) →
      dlookup (removeStakeLoop cfg a0 onh lst s).nodes k = some node' →
      dcontains node'.stakers a0 = false := by
  induction lst with
  | nil =>
    intro s k node' _ hmem _ _
    exact absurd hmem (by simp)
  | cons nh rest ih =>
    intro s k node' hnod hmem hguard hk
    rw [removeStakeLoop] at hk
    by_cases hkn : k = nh
    · subst hkn
      rw [if_pos hguard] at hk
      cases hl : dlookup s.nodes k with
      | none =>
        rw [hl] at hk
        obtain ⟨nodeM, hM, _⟩ := removeStakeLoop_mono _ _ _ _ _ _ _ hk
        obtain ⟨nodeP, hP, _⟩ := updateNodeStats_mono _ _ _ _ _ hM
        rw [hl] at hP
        exact absurd hP (by simp)
      | some node =>
        rw [hl] at hk
        obtain ⟨nodeM, hM, hsubM⟩ := removeStakeLoop_mono _ _ _ _ _ _ _ hk
        obtain ⟨nodeP, hP, heP⟩ := updateNodeStats_mono _ _ _ _ _ hM
        dsimp only at hP
        rw [dlookup_dinsert] at hP
        injection hP with hP
        have hout : a0 ∉ dkeys node'.stakers := by
          intro hin
          have hin2 := hsubM.subset hin
          rw [heP, ← hP] at hin2
          dsimp only at hin2
          have := dcontains_derase_self node.stakers a0 (hnod _ _ hl)
          rw [← dcontains_iff_mem_dkeys] at hin2
          rw [hin2] at this
          exact Bool.noConfusion this
        cases hcc : dcontains node'.stakers a0 with
        | false => rfl
        | true =>
          rw [dcontains_iff_mem_dkeys] at hcc
          exact absurd hcc hout
    · have hmem2 : k ∈ rest := by
        rcases List.mem_cons.mp hmem with h | h
        · exact absurd h hkn
        · exact h
      refine ih _ _ _ ?_ hmem2 hguard hk
      intro k2 n2 hk2
      obtain ⟨nodeP, hP, heP⟩ := updateNodeStats_mono _ _ _ _ _ hk2
      rw [heP]
      by_cases hg : onh = none ∨ onh = some nh
      · rw [if_pos hg] at hP
        cases hl : dlookup s.nodes nh with
        | none => rw [hl] at hP; exact hnod _ _ hP
        | some node =>
          rw [hl] at hP
          dsimp only at hP
          by_cases hkn2 : nh = k2
          · subst hkn2
            rw [dlookup_dinsert] at hP
            injection hP with hP
            rw [← hP]
            dsimp only
            exact dkeys_derase_nodup _ _ (hnod _ _ hl)
          · rw [dlookup_dinsert_ne _ _ _ _ hkn2] at hP
            exact hnod _ _ hP
      · rw [if_neg hg] at hP
        exact hnod _ _ hP

theorem removeStake_inv (cfg : Cfg) (s : St) (a0 : String) (onh : Option String)
    (h : Inv s) : Inv (removeStake cfg s a0 onh) := by
  obtain ⟨h1, h2, h3, h4⟩ := h
  unfold removeStake
  cases onh with
  | none =>
    dsimp only
    rw [if_pos (Or.inl rfl)]
    refine ⟨?_, ?_, ?_, ?_⟩
    · dsimp only
      exact removeStakeLoop_nodes_nodup _ _ _ _ _ h1
    · dsimp only
      rw [removeStakeLoop_astaking]
      exact dkeys_derase_nodup _ _ h2
    · intro k nodeX hk
      dsimp only at hk
      obtain ⟨node, hpre, hsub⟩ := removeStakeLoop_mono _ _ _ _ _ _ _ hk
      exact (h3 _ _ hpre).sublist hsub
    · intro k nodeX b hk hc
      dsimp only at hk ⊢
      obtain ⟨node, hpre, hsub⟩ := removeStakeLoop_mono _ _ _ _ _ _ _ hk
      have hcb : dcontains node.stakers b = true := by
        rw [dcontains_iff_mem_dkeys]
        exact hsub.subset ((dcontains_iff_mem_dkeys _ _).mp hc)
      have hmem := h4 _ _ _ hpre hcb
      by_cases hba : b = a0
      · subst hba
        have hrem := removeStakeLoop_removed cfg b none _ _ _ _ h3 hmem (Or.inl rfl) hk
        rw [hc] at hrem
        exact Bool.noConfusion hrem
      · rw [removeStakeLoop_astaking, dlookupD_derase_ne _ _ _ _ hba]
        exact hmem
  | some nh0 =>
    dsimp only
    have hast2 : (removeStakeLoop cfg a0 (some nh0) (dlookupD s.address_staking a0 [])
          { s with address_staking := dinsert s.address_staking a0 ((dlookupD s.address_staking a0 []).erase nh0) }).address_staking =
        dinsert s.address_staking a0 ((dlookupD s.address_staking a0 []).erase nh0) := by
      rw [removeStakeLoop_astaking]
    have hF4 : ∀ k nodeX b,
        dlookup (removeStakeLoop cfg a0 (some nh0) (dlookupD s.address_staking a0 [])
          { s with address_staking := dinsert s.address_staking a0 ((dlookupD s.address_staking a0 []).erase nh0) }).nodes k = some nodeX →
        dcontains nodeX.stakers b = true → k ∈ dlookupD s.address_staking b [] := by
      intro k nodeX b hk hc
      obtain ⟨node, hpre, hsub⟩ := removeStakeLoop_mono _ _ _ _ _ _ _ hk
      have hcb : dcontains node.stakers b = true := by
        rw [dcontains_iff_mem_dkeys]
        exact hsub.subset ((dcontains_iff_mem_dkeys _ _).mp hc)
      exact h4 _ _ _ hpre hcb
    have hF5 : ∀ k nodeX,
        dlookup (removeStakeLoop cfg a0 (some nh0) (dlookupD s.address_staking a0 [])
          { s with address_staking := dinsert s.address_staking a0 ((dlookupD s.address_staking a0 []).erase nh0) }).nodes k = some nodeX →
        dcontains nodeX.stakers a0 = true → k ≠ nh0 := by
      intro k nodeX hk hc hk0
      have hmem : k ∈ dlookupD s.address_staking a0 [] := hF4 _ _ _ hk hc
      have hrem := removeStakeLoop_removed cfg a0 (some nh0) _
        { s with address_staking := dinsert s.address_staking a0 ((dlookupD s.address_staking a0 []).erase nh0) } _ _
        (fun k2 n2 hk2 => h3 k2 n2 hk2) hmem (Or.inr (by rw [hk0])) hk
      rw [hc] at hrem
      exact Bool.noConfusion hrem
    have hKeep : Inv (removeStakeLoop cfg a0 (some nh0) (dlookupD s.address_staking a0 []) { s with address_staking := dinsert s.address_staking a0 ((dlookupD s.address_staking a0 []).erase nh0) }) := by
      refine ⟨?_, ?_, ?_, ?_⟩
      · exact removeStakeLoop_nodes_nodup _ _ _ _ _ h1
      · rw [hast2]
        exact dkeys_dinsert_nodup _ _ _ h2
      · intro k nodeX hk
        obtain ⟨node, hpre, hsub⟩ := removeStakeLoop_mono _ _ _ _ _ _ _ hk
        exact (h3 _ _ hpre).sublist hsub
      · intro k nodeX b hk hc
        by_cases hba : b = a0
        · subst hba
          have hmem : k ∈ dlookupD s.address_staking b [] := hF4 _ _ _ hk hc
          have hne : k ≠ nh0 := hF5 _ _ hk hc
          rw [hast2, dlookupD_dinsert]
          exact (List.mem_erase_of_ne hne).mpr hmem
        · rw [hast2, dlookupD_dinsert_ne _ _ _ _ _ (Ne.symm hba)]
          exact hF4 _ _ _ hk hc
    obtain ⟨k1, k2, k3, k4⟩ := hKeep
    by_cases hcond : (some nh0 = none ∨ (dlookupD (removeStakeLoop cfg a0 (some nh0) (dlookupD s.address_staking a0 []) { s with address_staking := dinsert s.address_staking a0 ((dlookupD s.address_staking a0 []).erase nh0) }).address_staking a0 []).length = 0)
    · rw [if_pos hcond]
      refine ⟨k1, dkeys_derase_nodup _ _ k2, k3, ?_⟩
      intro k nodeX b hk hc
      dsimp only at hk ⊢
      have hmem := k4 _ _ _ hk hc
      by_cases hba : b = a0
      · subst hba
        exfalso
        rcases hcond with hcond | hcond
        · exact Option.noConfusion hcond
        · rw [hast2, dlookupD_dinsert] at hmem
          rw [hast2, dlookupD_dinsert, List.length_eq_zero] at hcond
          rw [hcond] at hmem
          exact absurd hmem (by simp)
      · rw [dlookupD_derase_ne _ _ _ _ hba]
        exact hmem
    · rw [if_neg hcond]
      exact ⟨k1, k2, k3, k4⟩
/-- Adding (or overwriting) a node with empty stakers preserves the
invariant, whatever happens to address_nodes. -/
theorem Inv_create (s : St) (an : List (String × String)) (nh : String) (node : CoreNode)
    (hstakers : node.stakers = []) (h : Inv s) :
    Inv { s with address_nodes := an, nodes := dinsert s.nodes nh node } := by
  obtain ⟨h1, h2, h3, h4⟩ := h
  refine ⟨dkeys_dinsert_nodup _ _ _ h1, h2, ?_, ?_⟩
  · intro k nx hk
    dsimp only at hk
    by_cases hkn : nh = k
    · subst hkn
      rw [dlookup_dinsert] at hk
      injection hk with hk
      rw [← hk, hstakers]
      exact List.nodup_nil
    · rw [dlookup_dinsert_ne _ _ _ _ hkn] at hk
      exact h3 _ _ hk
  · intro k nx a hk hc
    dsimp only at hk ⊢
    by_cases hkn : nh = k
    · subst hkn
      rw [dlookup_dinsert] at hk
      injection hk with hk
      rw [← hk, hstakers] at hc
      exact absurd hc (by simp [dcontains])
    · rw [dlookup_dinsert_ne _ _ _ _ hkn] at hk
      exact h4 _ _ _ hk hc

/-- Overwriting one address's stake list with a superset of its current
list preserves the invariant. -/
theorem Inv_astaking_overwrite (t : St) (a : String) (lst2 : List String)
    (hInv : Inv t) (hsub : ∀ k ∈ dlookupD t.address_staking a [], k ∈ lst2) :
    Inv { t with address_staking := dinsert t.address_staking a lst2 } := by
  obtain ⟨h1, h2, h3, h4⟩ := hInv
  refine ⟨h1, dkeys_dinsert_nodup _ _ _ h2, h3, ?_⟩
  intro k nx b hk hc
  dsimp only at hk ⊢
  have hmem := h4 _ _ _ hk hc
  by_cases hba : b = a
  · subst hba
    rw [dlookupD_dinsert]
    exact hsub _ hmem
  · rw [dlookupD_dinsert_ne _ _ _ _ _ (Ne.symm hba)]
    exact hmem

/-- Adding a staker entry to a node preserves the invariant provided the
staker's stake list already records the node. -/
theorem Inv_add_staker (t : St) (a r : String) (node : CoreNode) (v : ℕ)
    (hInv : Inv t) (hlr : dlookup t.nodes r = some node)
    (hmem : r ∈ dlookupD t.address_staking a []) :
    Inv { t with nodes := dinsert t.nodes r { node with stakers := dinsert node.stakers a v } } := by
  obtain ⟨h1, h2, h3, h4⟩ := hInv
  refine ⟨dkeys_dinsert_nodup _ _ _ h1, h2, ?_, ?_⟩
  · intro k nx hk
    dsimp only at hk
    by_cases hkn : r = k
    · subst hkn
      rw [dlookup_dinsert] at hk
      injection hk with hk
      rw [← hk]
      exact dkeys_dinsert_nodup _ _ _ (h3 _ _ hlr)
    · rw [dlookup_dinsert_ne _ _ _ _ hkn] at hk
      exact h3 _ _ hk
  · intro k nx b hk hc
    dsimp only at hk ⊢
    by_cases hkn : r = k
    · subst hkn
      rw [dlookup_dinsert] at hk
      injection hk with hk
      rw [← hk] at hc
      dsimp only at hc
      rw [dcontains_iff_mem_dkeys] at hc
      rcases (mem_dkeys_dinsert _ _ _ _).mp hc with hb | hb
      · exact h4 _ _ _ hlr ((dcontains_iff_mem_dkeys _ _).mpr hb)
      · subst hb
        exact hmem
    · rw [dlookup_dinsert_ne _ _ _ _ hkn] at hk
      exact h4 _ _ _ hk hc

theorem recomputeBalances_nodes (l : List String) (s : St) :
    (recomputeBalances l s).nodes = s.nodes := by
  induction l generalizing s with
  | nil => rfl
  | cons addr rest ih => rw [recomputeBalances, ih]

theorem createNodeEffect_inv (cfg : Cfg) (s : St) (height : ℕ) (m : Msg) (h : Inv s) :
    Inv (createNodeEffect cfg s height m) := by
  unfold createNodeEffect
  dsimp only
  by_cases hc : dcontains s.address_staking m.address = true
  · rw [if_pos hc]
    exact removeStake_inv _ _ _ _ (Inv_create _ _ _ _ rfl h)
  · rw [if_neg hc]
    exact Inv_create _ _ _ _ rfl h

theorem createResourceNodeEffect_inv (cfg : Cfg) (s : St) (m : Msg) (h : Inv s) :
    Inv (createResourceNodeEffect cfg s m) := by
  unfold createResourceNodeEffect
  exact Inv_congr _ _ rfl rfl h

theorem amendCoreEffect_inv (cfg : Cfg) (s : St) (m : Msg) (h : Inv s) :
    Inv (amendCoreEffect cfg s m) := by
  unfold amendCoreEffect
  cases href : m.ref with
  | none => exact h
  | some r =>
    dsimp only
    cases hl : dlookup s.nodes r with
    | none => exact h
    | some node =>
      dsimp only
      exact Inv_updateNode s r node _ hl rfl h

theorem amendResourceEffect_inv (cfg : Cfg) (s : St) (m : Msg) (h : Inv s) :
    Inv (amendResourceEffect cfg s m) := by
  unfold amendResourceEffect
  cases href : m.ref with
  | none => exact h
  | some r =>
    dsimp only
    cases hl : dlookup s.resource_nodes r with
    | none => exact h
    | some node => exact Inv_congr _ _ rfl rfl h

theorem linkEffect_inv (cfg : Cfg) (s : St) (m : Msg) (h : Inv s) :
    Inv (linkEffect cfg s m) := by
  unfold linkEffect
  cases hle : dlookup s.address_nodes m.address with
  | none => cases m.ref <;> exact h
  | some en =>
    dsimp only
    cases href : m.ref with
    | none => exact h
    | some r =>
      dsimp only
      cases hln : dlookup s.nodes en with
      | none => cases dlookup s.resource_nodes r <;> exact h
      | some node =>
        cases hlr : dlookup s.resource_nodes r with
        | none => exact h
        | some rnode =>
          dsimp only
          apply updateNodeStats_inv
          exact Inv_congr _ _ rfl rfl (Inv_updateNode s en node _ hln rfl h)

theorem unlinkEffect_inv (cfg : Cfg) (s : St) (m : Msg) (h : Inv s) :
    Inv (unlinkEffect cfg s m) := by
  unfold unlinkEffect
  cases href : m.ref with
  | none => exact h
  | some r =>
    dsimp only
    cases hlr : dlookup s.resource_nodes r with
    | none => exact h
    | some rnode =>
      dsimp only
      cases hp : rnode.parent with
      | none => exact h
      | some p =>
        dsimp only
        cases hln : dlookup s.nodes p with
        | none => exact h
        | some node =>
          dsimp only
          apply updateNodeStats_inv
          exact Inv_congr _ _ rfl rfl (Inv_updateNode s p node _ hln rfl h)

theorem removeResourceNode_inv (cfg : Cfg) (s : St) (nh : String) (h : Inv s) :
    Inv (removeResourceNode cfg s nh) := by
  unfold removeResourceNode
  cases hl : dlookup s.resource_nodes nh with
  | none => exact h
  | some node =>
    dsimp only
    cases hp : node.parent with
    | none => exact Inv_congr _ _ rfl rfl h
    | some p =>
      dsimp only
      cases hlp : dlookup s.nodes p with
      | none => exact Inv_congr _ _ rfl rfl h
      | some pnode =>
        dsimp only
        refine Inv_congr _ _ rfl rfl (updateNodeStats_inv _ _ _ ?_)
        exact Inv_updateNode s p pnode _ hlp rfl h

theorem applyCcnScore_inv (s : St) (height : ℕ) (e : ScoreEntry) (h : Inv s) :
    Inv (applyCcnScore s height e) := by
  unfold applyCcnScore
  cases hl : dlookup s.nodes e.node_id with
  | none => exact h
  | some node =>
    dsimp only
    refine Inv_updateNode s e.node_id node _ hl ?_ h
    dsimp only
    split_ifs <;> rfl

theorem applyCrnScore_inv (cfg : Cfg) (s : St) (height : ℕ) (e : ScoreEntry)
    (h : Inv s) : Inv (applyCrnScore cfg s height e) := by
  unfold applyCrnScore
  cases hl : dlookup s.resource_nodes e.node_id with
  | none => exact h
  | some node =>
    dsimp only
    split_ifs <;>
      first
        | exact removeResourceNode_inv _ _ _ (Inv_congr _ _ rfl rfl h)
        | exact Inv_congr _ _ rfl rfl h

theorem ccnScoresFold_inv (s : St) (height : ℕ) (l : List ScoreEntry) (h : Inv s) :
    Inv (ccnScoresFold s height l) := by
  induction l generalizing s with
  | nil => exact h
  | cons e rest ih => exact ih _ (applyCcnScore_inv _ _ _ h)

theorem crnScoresFold_inv (cfg : Cfg) (s : St) (height : ℕ) (l : List ScoreEntry)
    (h : Inv s) : Inv (crnScoresFold cfg s height l) := by
  induction l generalizing s with
  | nil => exact h
  | cons e rest ih => exact ih _ (applyCrnScore_inv _ _ _ _ h)

theorem removeStake_none_astaking_self (cfg : Cfg) (s : St) (a0 : String)
    (h2 : (dkeys s.address_staking).Nodup) :
    dlookup (removeStake cfg s a0 none).address_staking a0 = none := by
  rw [removeStake_astaking_none]
  exact dlookup_derase_self _ _ h2

theorem stakeEffect_inv (cfg : Cfg) (s : St) (m : Msg) (h : Inv s) :
    Inv (stakeEffect cfg s m) := by
  unfold stakeEffect
  cases href : m.ref with
  | none => exact h
  | some r =>
    dsimp only
    have tail : ∀ t : St, Inv t → dlookup t.address_staking m.address = none →
        Inv (updateNodeStats cfg { (match dlookup t.nodes r with | some node => { t with nodes := dinsert t.nodes r { node with stakers := dinsert node.stakers m.address (dlookupD t.balances m.address 0) } } | none => t) with address_staking := dinsert (match dlookup t.nodes r with | some node => { t with nodes := dinsert t.nodes r { node with stakers := dinsert node.stakers m.address (dlookupD t.balances m.address 0) } } | none => t).address_staking m.address [r] } r) := by
      intro t hInv hnone
      apply updateNodeStats_inv
      cases hlr : dlookup t.nodes r with
      | none =>
        dsimp only
        refine Inv_astaking_overwrite t m.address [r] hInv ?_
        intro k hk
        rw [dlookupD, hnone] at hk
        exact absurd hk (by simp)
      | some node =>
        dsimp only
        have hG : Inv { t with address_staking := dinsert t.address_staking m.address [r] } := by
          refine Inv_astaking_overwrite t m.address [r] hInv ?_
          intro k hk
          rw [dlookupD, hnone] at hk
          exact absurd hk (by simp)
        exact Inv_add_staker { t with address_staking := dinsert t.address_staking m.address [r] }
          m.address r node (dlookupD t.balances m.address 0) hG hlr
          (by dsimp only; rw [dlookupD_dinsert]; exact List.mem_singleton.mpr rfl)
    by_cases hc : dcontains s.address_staking m.address = true
    · rw [if_pos hc]
      exact tail _ (removeStake_inv _ _ _ _ h) (removeStake_none_astaking_self _ _ _ h.2.1)
    · rw [if_neg hc]
      exact tail s h (dcontains_false_dlookup _ _ (by simpa using hc))

theorem stakeSplitEffect_inv (cfg : Cfg) (s : St) (m : Msg) (h : Inv s) :
    Inv (stakeSplitEffect cfg s m) := by
  unfold stakeSplitEffect
  cases href : m.ref with
  | none => exact h
  | some r =>
    dsimp only
    have tail : ∀ t : St, Inv t →
        Inv (updateAll cfg (match dlookup t.nodes r with | some node => { { t with address_staking := dinsert t.address_staking m.address (dlookupD t.address_staking m.address [] ++ [r]) } with nodes := dinsert t.nodes r { node with stakers := dinsert node.stakers m.address (pyIntDiv (dlookupD t.balances m.address 0) (dlookupD t.address_staking m.address [] ++ [r]).length) } } | none => { t with address_staking := dinsert t.address_staking m.address (dlookupD t.address_staking m.address [] ++ [r]) }) (dlookupD t.address_staking m.address [] ++ [r])) := by
      intro t hInv
      apply updateAll_inv
      have hs2 : Inv { t with address_staking := dinsert t.address_staking m.address (dlookupD t.address_staking m.address [] ++ [r]) } :=
        Inv_astaking_overwrite t m.address _ hInv (fun k hk => List.mem_append_left _ hk)
      cases hlr : dlookup t.nodes r with
      | none => exact hs2
      | some node =>
        dsimp only
        exact Inv_add_staker { t with address_staking := dinsert t.address_staking m.address (dlookupD t.address_staking m.address [] ++ [r]) }
          m.address r node _ hs2 hlr
          (by dsimp only; rw [dlookupD_dinsert]; exact List.mem_append_right _ (List.mem_singleton.mpr rfl))
    by_cases hc : dcontains s.address_staking m.address = true
    · rw [if_neg (not_not_intro hc)]
      exact tail s h
    · rw [if_pos hc]
      refine tail _ (Inv_astaking_overwrite s m.address [] h ?_)
      intro k hk
      rw [dlookupD, dcontains_false_dlookup _ _ (by simpa using hc)] at hk
      exact absurd hk (by simp)

theorem balanceFold_inv (cfg : Cfg) (l : List String) :
    ∀ (s : St) (ch : Bool), Inv s → Inv (balanceFold cfg l s ch).1 := by
  induction l with
  | nil => exact fun s ch h => h
  | cons addr rest ih =>
    intro s ch h
    rw [balanceFold]
    split_ifs with hc1 hc2 hc3 hc4
    · exact ih _ _ (removeNode_inv _ _ _ h)
    · exact ih _ _ h
    · exact ih _ _ (removeStake_inv _ _ _ _ h)
    · exact ih _ _ (updateAll_inv _ _ _ h)
    · exact ih _ _ h

theorem processMsg_inv (cfg : Cfg) (s : St) (height : ℕ) (m : Msg) (h : Inv s) :
    Inv (processMsg cfg s height m).1 := by
  unfold processMsg
  repeat' split
  all_goals dsimp only
  all_goals
    first
      | exact h
      | exact createNodeEffect_inv _ _ _ _ h
      | exact createResourceNodeEffect_inv _ _ _ h
      | exact linkEffect_inv _ _ _ h
      | exact unlinkEffect_inv _ _ _ h
      | exact removeNode_inv _ _ _ h
      | exact removeResourceNode_inv _ _ _ h
      | exact stakeEffect_inv _ _ _ h
      | exact stakeSplitEffect_inv _ _ _ h
      | exact removeStake_inv _ _ _ _ h
      | exact amendCoreEffect_inv _ _ _ h
      | exact amendResourceEffect_inv _ _ _ h

theorem processEvent_inv (cfg : Cfg) (s : St) (height : ℕ) (ev : Event) (h : Inv s) :
    Inv (processEvent cfg s height ev).1 := by
  cases ev with
  | balanceUpdate balances platform changed =>
    dsimp only [processEvent]
    have hI3 : Inv (balanceFold cfg changed (recomputeBalances changed { s with platform_balances := dinsert s.platform_balances platform balances }) true).1 := by
      refine balanceFold_inv _ _ _ _ ?_
      refine Inv_congr _ _ ?_ ?_ h
      · rw [recomputeBalances_nodes]
      · rw [recomputeBalances_astaking]
    rcases hbf : balanceFold cfg changed (recomputeBalances changed { s with platform_balances := dinsert s.platform_balances platform balances }) true with ⟨s3, ch⟩
    rw [hbf] at hI3
    dsimp only at hI3 ⊢
    repeat' split
    all_goals exact Inv_congr _ _ rfl rfl hI3
  | scoreUpdate sm =>
    dsimp only [processEvent]
    have hfold : Inv (crnScoresFold cfg (ccnScoresFold s height sm.ccn) height sm.crn) :=
      crnScoresFold_inv _ _ _ _ (ccnScoresFold_inv _ _ _ h)
    repeat' split
    all_goals first
      | exact Inv_congr _ _ rfl rfl hfold
      | exact Inv_congr _ _ rfl rfl h
  | stakingUpdate m =>
    dsimp only [processEvent]
    have hI1 := processMsg_inv cfg s height m h
    rcases hpm : processMsg cfg s height m with ⟨s1, ch⟩
    rw [hpm] at hI1
    dsimp only at hI1 ⊢
    repeat' split
    all_goals exact Inv_congr _ _ rfl rfl hI1

/-- A state is reachable when some merged event sequence produces it
from the initial NodesStatus state. -/
def Reachable (cfg : Cfg) (s : St) : Prop :=
  ∃ evs : List (ℕ × Event), (runEvents cfg evs emptySt).1 = s

theorem emptySt_inv : Inv emptySt := by
  refine ⟨List.nodup_nil, List.nodup_nil, ?_, ?_⟩
  · intro k node hk
    exact absurd hk (by simp [emptySt, dlookup])
  · intro k node a hk _
    exact absurd hk (by simp [emptySt, dlookup])

theorem runEvents_inv (cfg : Cfg) (evs : List (ℕ × Event)) :
    ∀ (s : St), Inv s → Inv (runEvents cfg evs s).1 := by
  induction evs with
  | nil => exact fun s h => h
  | cons p rest ih =>
    intro s h
    rcases p with ⟨height, ev⟩
    rw [runEvents]
    rcases hpe : processEvent cfg s height ev with ⟨s1, em⟩
    have hI1 : Inv s1 := by
      have := processEvent_inv cfg s height ev h
      rw [hpe] at this
      exact this
    dsimp only
    rcases hre : runEvents cfg rest s1 with ⟨s2, snaps⟩
    have hI2 : Inv s2 := by
      have := ih s1 hI1
      rw [hre] at this
      exact this
    exact hI2

theorem reachable_inv (cfg : Cfg) (s : St) (h : Reachable cfg s) : Inv s := by
  obtain ⟨evs, hevs⟩ := h
  rw [← hevs]
  exact runEvents_inv cfg evs emptySt emptySt_inv

/-- C10.  In every reachable state, every address appearing as a key of
some core node's stakers dict has an entry in address_to_stakes with a
non-empty node list; in particular the divisor
len(address_staking.get(addr, [])) used by update_node_stats
(status.py 59-60) is strictly positive at every reachable state, so the
stake-split division never divides by zero. -/
theorem stake_split_divisor_positive (cfg : Cfg) (s : St) (hreach : Reachable cfg s)
    (k a : String) (node : CoreNode)
    (hk : dlookup s.nodes k = some node) (ha : dcontains node.stakers a = true) :
    (∃ l, dlookup s.address_staking a = some l ∧ l ≠ []) ∧
      0 < (dlookupD s.address_staking a []).length := by
  have hInv := reachable_inv cfg s hreach
  have hmem := hInv.2.2.2 _ _ _ hk ha
  obtain ⟨l, hl, hkl⟩ := mem_dlookupD _ _ _ hmem
  have hne : l ≠ [] := by
    intro hnil
    rw [hnil] at hkl
    exact absurd hkl (by simp)
  refine ⟨⟨l, hl, hne⟩, ?_⟩
  rw [dlookupD, hl, Option.getD_some]
  exact List.length_pos.mpr hne

/-- The state reached by the C1/C10 run: funded owner and staker, one
created core node, one accepted stake. -/
def sC10 : St := (runEvents defaultCfg evsStakeRun emptySt).1

/-- The core node stored at hash H1 in sC10. -/
def c10Node : CoreNode :=
  { hash := "H1", owner := "0xO", reward := "0xO", locked := false
    stakers := [("0xA", 10 ^ 22)], total_staked := 10 ^ 22, status := "waiting"
    time := 5, authorized := [], resource_nodes := []
    score := 0, decentralization := 0, performance := 0, inactive_since := none
    has_bonus := true, score_updated := false
    name := "", multiaddress := "", address := "", picture := "", banner := ""
    description := "", stream_reward := "", manager := "", registration_url := ""
    terms_and_conditions := "" }

/-- Witness for C10 at the concrete reachable state sC10. -/
theorem stake_split_divisor_positive_witness :
    Reachable defaultCfg sC10 ∧
      dlookup sC10.nodes "H1" = some c10Node ∧
      dcontains c10Node.stakers "0xA" = true ∧
      ((∃ l, dlookup sC10.address_staking "0xA" = some l ∧ l ≠ []) ∧
        0 < (dlookupD sC10.address_staking "0xA" []).length) :=
  ⟨⟨evsStakeRun, rfl⟩, by decide, by decide,
    stake_split_divisor_positive defaultCfg sC10 ⟨evsStakeRun, rfl⟩ "H1" "0xA" c10Node
      (by decide) (by decide)⟩

theorem updateNodeStats_balances (cfg : Cfg) (s : St) (nh : String) :
    (updateNodeStats cfg s nh).balances = s.balances := by
  unfold updateNodeStats
  cases dlookup s.nodes nh <;> rfl

theorem updateNodeStats_nodes_other (cfg : Cfg) (s : St) (nh r : String)
    (hne : nh ≠ r) :
    dlookup (updateNodeStats cfg s nh).nodes r = dlookup s.nodes r := by
  unfold updateNodeStats
  cases dlookup s.nodes nh with
  | none => rfl
  | some node =>
    dsimp only
    exact dlookup_dinsert_ne _ _ _ _ hne

theorem removeStakeLoop_balances (cfg : Cfg) (a0 : String) (onh : Option String)
    (lst : List String) : ∀ (s : St),
    (removeStakeLoop cfg a0 onh lst s).balances = s.balances := by
  induction lst with
  | nil => exact fun s => rfl
  | cons nh rest ih =>
    intro s
    rw [removeStakeLoop, ih, updateNodeStats_balances]
    split_ifs with hg
    · cases dlookup s.nodes nh <;> rfl
    · rfl

theorem removeStakeLoop_nodes_other (cfg : Cfg) (a0 : String) (onh : Option String)
    (lst : List String) (r : String) : ∀ (s : St), r ∉ lst →
    dlookup (removeStakeLoop cfg a0 onh lst s).nodes r = dlookup s.nodes r := by
  induction lst with
  | nil => exact fun s _ => rfl
  | cons nh rest ih =>
    intro s hr
    have hr2 : r ∉ rest := fun hx => hr (List.mem_cons_of_mem _ hx)
    have hrn : nh ≠ r := fun hx => hr (hx ▸ List.mem_cons_self nh rest)
    rw [removeStakeLoop, ih _ hr2, updateNodeStats_nodes_other _ _ _ _ hrn]
    split_ifs with hg
    · cases dlookup s.nodes nh with
      | none => rfl
      | some node =>
        dsimp only
        exact dlookup_dinsert_ne _ _ _ _ hrn
    · rfl

theorem removeStake_balances (cfg : Cfg) (s : St) (a0 : String) (onh : Option String) :
    (removeStake cfg s a0 onh).balances = s.balances := by
  unfold removeStake
  cases onh <;> dsimp only <;> split_ifs <;> rw [removeStakeLoop_balances]

theorem removeStake_nodes_other (cfg : Cfg) (s : St) (a0 : String) (onh : Option String)
    (r : String) (hr : r ∉ dlookupD s.address_staking a0 []) :
    dlookup (removeStake cfg s a0 onh).nodes r = dlookup s.nodes r := by
  unfold removeStake
  cases onh <;> dsimp only <;> split_ifs <;> rw [removeStakeLoop_nodes_other _ _ _ _ _ _ hr]

/-- update_node_stats at a present key, as a state equation. -/
theorem updateNodeStats_eq (cfg : Cfg) (s : St) (nh : String) (node : CoreNode)
    (hl : dlookup s.nodes nh = some node) :
    updateNodeStats cfg s nh = { s with nodes := dinsert s.nodes nh { node with stakers := node.stakers.map (fun p => (p.1, pyIntDiv (dlookupD s.balances p.1 0) (dlookupD s.address_staking p.1 []).length)), total_staked := dsum (node.stakers.map (fun p => (p.1, pyIntDiv (dlookupD s.balances p.1 0) (dlookupD s.address_staking p.1 []).length))), status := if ACTIVATION_AMT cfg - 1 * DECIMALS ≤ dsum (node.stakers.map (fun p => (p.1, pyIntDiv (dlookupD s.balances p.1 0) (dlookupD s.address_staking p.1 []).length))) then "active" else "waiting" } } := by
  unfold updateNodeStats
  rw [hl]

theorem mapval_mapval {α β γ : Type} (l : List (String × α)) (f : String → β)
    (g : String → γ) :
    ((l.map fun p => (p.1, f p.1)).map fun p => (p.1, g p.1)) =
      l.map fun p => (p.1, g p.1) := by
  rw [List.map_map]
  rfl

theorem stake_unstake_roundtrip_main (cfg : Cfg) (s : St) (m munstake : Msg)
    (r : String) (n : CoreNode)
    (hconA : dcontains n.stakers m.address = false)
    (hP2 : ∀ p ∈ n.stakers,
      p.2 = pyIntDiv (dlookupD s.balances p.1 0) (dlookupD s.address_staking p.1 []).length)
    (hua : munstake.address = m.address) (hur : munstake.ref = some r)
    (huact : munstake.action = "unstake") :
    ∀ t : St,
      dlookup t.nodes r = some n →
      dlookup t.address_staking m.address = none →
      t.balances = s.balances →
      (∀ p : String, p ≠ m.address →
        dlookupD t.address_staking p [] = dlookupD s.address_staking p []) →
      unstakeCond (updateNodeStats cfg { t with nodes := dinsert t.nodes r { n with stakers := dinsert n.stakers m.address (dlookupD t.balances m.address 0) }, address_staking := dinsert t.address_staking m.address [r] } r) munstake = true ∧
      ∃ n', dlookup (removeStake cfg (updateNodeStats cfg { t with nodes := dinsert t.nodes r { n with stakers := dinsert n.stakers m.address (dlookupD t.balances m.address 0) }, address_staking := dinsert t.address_staking m.address [r] } r) munstake.address munstake.ref).nodes r = some n' ∧ n'.stakers = n.stakers ∧ n'.total_staked = dsum n.stakers := by
  intro t htn htnone htbal htast
  rw [updateNodeStats_eq cfg _ r _ (dlookup_dinsert _ _ _)]
  dsimp only
  have hkey : ((derase ((dinsert n.stakers m.address (dlookupD t.balances m.address 0)).map fun p => (p.1, pyIntDiv (dlookupD t.balances p.1 0) (dlookupD (dinsert t.address_staking m.address [r]) p.1 []).length)) m.address).map fun p => (p.1, pyIntDiv (dlookupD t.balances p.1 0) (dlookupD (dinsert (dinsert t.address_staking m.address [r]) m.address []) p.1 []).length)) = n.stakers := by
    rw [dinsert_eq_append _ _ _ hconA, List.map_append]
    simp only [List.map_cons, List.map_nil]
    rw [derase_append _ _ _ (by rw [dcontains_mapval n.stakers (fun x => pyIntDiv (dlookupD t.balances x 0) (dlookupD (dinsert t.address_staking m.address [r]) x []).length)]; exact hconA)]
    rw [mapval_mapval n.stakers (fun x => pyIntDiv (dlookupD t.balances x 0) (dlookupD (dinsert t.address_staking m.address [r]) x []).length) (fun x => pyIntDiv (dlookupD t.balances x 0) (dlookupD (dinsert (dinsert t.address_staking m.address [r]) m.address []) x []).length)]
    have hfix : ∀ p ∈ n.stakers,
        (fun p : String × ℕ => (p.1, pyIntDiv (dlookupD t.balances p.1 0) (dlookupD (dinsert (dinsert t.address_staking m.address [r]) m.address []) p.1 []).length)) p = p := by
      intro p hp
      have hpa : p.1 ≠ m.address := by
        intro he
        have hcp : dcontains n.stakers p.1 = true := by
          rw [dcontains_iff_mem_dkeys]
          exact List.mem_map.mpr ⟨p, hp, rfl⟩
        rw [he, hconA] at hcp
        exact Bool.noConfusion hcp
      dsimp only
      rw [dlookupD_dinsert_ne _ _ _ _ _ (Ne.symm hpa),
        dlookupD_dinsert_ne _ _ _ _ _ (Ne.symm hpa), htast p.1 hpa, htbal,
        ← hP2 p hp]
    rw [List.map_congr_left hfix]
    exact List.map_id _
  constructor
  · simp only [unstakeCond, huact, hua, hur]
    rw [dcontains_dinsert_self, dlookupD_dinsert]
    simp
  · rw [hua, hur]
    unfold removeStake
    dsimp only
    rw [dlookupD_dinsert]
    rw [show ([r] : List String).erase r = [] from by simp]
    rw [removeStakeLoop]
    rw [if_pos (Or.inr rfl)]
    dsimp only
    rw [dlookup_dinsert]
    dsimp only
    rw [removeStakeLoop]
    rw [updateNodeStats_eq cfg _ r _ (dlookup_dinsert _ _ _)]
    dsimp only
    rw [dlookupD_dinsert]
    rw [if_pos (show ((some r : Option String) = none ∨ ([] : List String).length = 0) from Or.inr rfl)]
    dsimp only
    refine ⟨_, dlookup_dinsert _ _ _, ?_, ?_⟩
    · dsimp only
      exact hkey
    · dsimp only
      rw [hkey]

/-- C9 (amended).  From any reachable state whose target core node n
(at hash r) satisfies the stake-split relation as the code computes it
(each recorded stake is the rounded balance split used by
update_node_stats), and any accepted stake message by an address a that
is not already staking on r: the stake followed by the matching accepted
unstake restores n.stakers to its pre-stake value and total_staked to
the corresponding sum.  The original claim, quantifying over every
address whose stake message is accepted, fails: stake is also accepted
when a already stakes on r (stake_split put it there), and the round
trip then strips a from the node instead of restoring its old share. -/
theorem stake_unstake_roundtrip (cfg : Cfg) (s : St) (m munstake : Msg) (r : String)
    (n : CoreNode)
    (hreach : Reachable cfg s)
    (href : m.ref = some r)
    (hn : dlookup s.nodes r = some n)
    (hcond : stakeCond cfg s m = true)
    (hnot : r ∉ dlookupD s.address_staking m.address [])
    (hP2 : ∀ p ∈ n.stakers,
      p.2 = pyIntDiv (dlookupD s.balances p.1 0) (dlookupD s.address_staking p.1 []).length)
    (hua : munstake.address = m.address) (hur : munstake.ref = some r)
    (huact : munstake.action = "unstake") :
    unstakeCond (stakeEffect cfg s m) munstake = true ∧
    ∃ n', dlookup (removeStake cfg (stakeEffect cfg s m) munstake.address munstake.ref).nodes r
        = some n' ∧ n'.stakers = n.stakers ∧ n'.total_staked = dsum n.stakers := by
  have hInv := reachable_inv cfg s hreach
  have hconA : dcontains n.stakers m.address = false := by
    cases hcc : dcontains n.stakers m.address with
    | false => rfl
    | true => exact absurd (hInv.2.2.2 _ _ _ hn hcc) hnot
  have main := stake_unstake_roundtrip_main cfg s m munstake r n hconA hP2 hua hur huact
  unfold stakeEffect
  rw [href]
  dsimp only
  by_cases hc : dcontains s.address_staking m.address = true
  · rw [if_pos hc]
    have hA : dlookup (removeStake cfg s m.address none).nodes r = some n := by
      rw [removeStake_nodes_other _ _ _ _ _ hnot]
      exact hn
    rw [hA]
    dsimp only
    refine main _ hA (removeStake_none_astaking_self _ _ _ hInv.2.1)
      (removeStake_balances _ _ _ _) ?_
    intro p hp
    rw [removeStake_astaking_none]
    exact dlookupD_derase_ne _ _ _ _ hp
  · rw [if_neg hc]
    rw [hn]
    dsimp only
    exact main s hn (dcontains_false_dlookup _ _ (by simpa using hc)) rfl
      (fun p hp => rfl)

def msgCreateC9H1 : Msg :=
  { item_hash := "H1", time := 5, postType := "corechan-operation"
    address := "0xO1", action := "create-node" }

def msgCreateC9H2 : Msg :=
  { item_hash := "H2", time := 6, postType := "corechan-operation"
    address := "0xO2", action := "create-node" }

def msgSplitC9H1 : Msg :=
  { item_hash := "M4", time := 7, postType := "corechan-operation"
    address := "0xA", action := "stake-split", ref := some "H1" }

def msgSplitC9H2 : Msg :=
  { item_hash := "M5", time := 8, postType := "corechan-operation"
    address := "0xA", action := "stake-split", ref := some "H2" }

def msgStakeC9 : Msg :=
  { item_hash := "M6", time := 9, postType := "corechan-operation"
    address := "0xA", action := "stake", ref := some "H1" }

def msgUnstakeC9 : Msg :=
  { item_hash := "M7", time := 10, postType := "corechan-operation"
    address := "0xA", action := "unstake", ref := some "H1" }

/-- Two owners create two core nodes; 0xA splits its stake across
both. -/
def evsC9 : List (ℕ × Event) :=
  [ (1, .balanceUpdate [("0xO1", 2 * 10 ^ 23), ("0xO2", 2 * 10 ^ 23), ("0xA", 10 ^ 22)] "ETH" ["0xO1", "0xO2", "0xA"]),
    (2, .stakingUpdate msgCreateC9H1),
    (3, .stakingUpdate msgCreateC9H2),
    (4, .stakingUpdate msgSplitC9H1),
    (5, .stakingUpdate msgSplitC9H2) ]

def sC9 : St := (runEvents defaultCfg evsC9 emptySt).1

/-- C9 counterexample.  In the reachable state sC9 the address 0xA
stakes on H1 and H2 through stake-split, holding the share 5e21 on H1.
A stake message by 0xA on H1 is nevertheless accepted (the stake branch
does not exclude an existing staker); it first drops all of 0xA's
stakes, and the subsequent accepted unstake on H1 leaves H1 with no
stakers at all instead of restoring the 5e21 share: the round trip does
not restore n.stakers. -/
theorem stake_unstake_roundtrip_fails :
    Reachable defaultCfg sC9 ∧
    stakeCond defaultCfg sC9 msgStakeC9 = true ∧
    unstakeCond (stakeEffect defaultCfg sC9 msgStakeC9) msgUnstakeC9 = true ∧
    (dlookup sC9.nodes "H1").map (fun nd => nd.stakers) = some [("0xA", 5 * 10 ^ 21)] ∧
    (dlookup (removeStake defaultCfg (stakeEffect defaultCfg sC9 msgStakeC9) msgUnstakeC9.address msgUnstakeC9.ref).nodes "H1").map (fun nd => nd.stakers) = some [] ∧
    ([("0xA", 5 * 10 ^ 21)] : List (String × ℕ)) ≠ [] :=
  ⟨⟨evsC9, rfl⟩, by decide, by decide, by decide, by decide, by decide⟩

def msgCreateW : Msg :=
  { item_hash := "H1", time := 5, postType := "corechan-operation"
    address := "0xO", action := "create-node" }

def msgStakeB : Msg :=
  { item_hash := "M2", time := 6, postType := "corechan-operation"
    address := "0xB", action := "stake", ref := some "H1" }

def msgStakeW : Msg :=
  { item_hash := "M3", time := 7, postType := "corechan-operation"
    address := "0xA", action := "stake", ref := some "H1" }

def msgUnstakeW : Msg :=
  { item_hash := "M4", time := 8, postType := "corechan-operation"
    address := "0xA", action := "unstake", ref := some "H1" }

/-- Witness run: fund an owner, an existing staker 0xB and a fresh
staker 0xA; create H1; 0xB stakes on it. -/
def evsW : List (ℕ × Event) :=
  [ (1, .balanceUpdate [("0xO", 2 * 10 ^ 23), ("0xB", 10 ^ 22), ("0xA", 10 ^ 22)] "ETH" ["0xO", "0xB", "0xA"]),
    (2, .stakingUpdate msgCreateW),
    (3, .stakingUpdate msgStakeB) ]

def sW : St := (runEvents defaultCfg evsW emptySt).1

/-- The node stored at H1 in sW. -/
def c9Node : CoreNode :=
  { hash := "H1", owner := "0xO", reward := "0xO", locked := false
    stakers := [("0xB", 10 ^ 22)], total_staked := 10 ^ 22, status := "waiting"
    time := 5, authorized := [], resource_nodes := []
    score := 0, decentralization := 0, performance := 0, inactive_since := none
    has_bonus := true, score_updated := false
    name := "", multiaddress := "", address := "", picture := "", banner := ""
    description := "", stream_reward := "", manager := "", registration_url := ""
    terms_and_conditions := "" }

/-- Witness for the amended C9 at the concrete reachable state sW. -/
theorem stake_unstake_roundtrip_witness :
    (Reachable defaultCfg sW ∧
      msgStakeW.ref = some "H1" ∧
      dlookup sW.nodes "H1" = some c9Node ∧
      stakeCond defaultCfg sW msgStakeW = true ∧
      "H1" ∉ dlookupD sW.address_staking msgStakeW.address [] ∧
      (∀ p ∈ c9Node.stakers,
        p.2 = pyIntDiv (dlookupD sW.balances p.1 0) (dlookupD sW.address_staking p.1 []).length) ∧
      msgUnstakeW.address = msgStakeW.address ∧ msgUnstakeW.ref = some "H1" ∧
      msgUnstakeW.action = "unstake") ∧
    (unstakeCond (stakeEffect defaultCfg sW msgStakeW) msgUnstakeW = true ∧
      ∃ n', dlookup (removeStake defaultCfg (stakeEffect defaultCfg sW msgStakeW) msgUnstakeW.address msgUnstakeW.ref).nodes "H1" = some n' ∧
        n'.stakers = c9Node.stakers ∧ n'.total_staked = dsum c9Node.stakers) :=
  ⟨⟨⟨evsW, rfl⟩, rfl, by decide, by decide, by decide, by decide, rfl, rfl, rfl⟩,
    stake_unstake_roundtrip defaultCfg sW msgStakeW msgUnstakeW "H1" c9Node
      ⟨evsW, rfl⟩ rfl (by decide) (by decide) (by decide) (by decide) rfl rfl rfl⟩

end NodeStatus
